import Mathlib

/-!
Verification of the DML pooled upload heap (`PooledUploadHeap.cpp`) and the
bucketized buffer allocator's ID/size bookkeeping
(`BucketizedBufferAllocator.h`) against their natural-language specification.

The C++ `size_t` values (offsets, sizes, capacities) are embedded as `Nat`.
The single place where the source explicitly guards against `size_t`
wrap-around (`FindOffsetForAllocation`'s overflow check) is kept verbatim;
in the `Nat` embedding that guard is vacuously false, which matches the
source's behaviour on all inputs that do not wrap a 64-bit counter.
-/

/-- A live sub-allocation inside an upload-heap chunk
(`PooledUploadHeap::Allocation`).  `allocId` models the identity of the
C++ `Allocation` object (the `std::list` node address), which the cached
command lists hold a raw pointer to. -/
structure Allocation where
  allocId : Nat
  sizeInBytes : Nat
  offsetInChunk : Nat
  doneEvent : Nat
  locked : Bool
deriving DecidableEq

/-- A staging chunk (`PooledUploadHeap::Chunk`).  `resourceId` models the
identity of the committed D3D resource backing the chunk, and
`resourceSize` its size (`resource->GetDesc().Width`); `CreateChunk` makes
both equal to `capacityInBytes`. -/
structure Chunk where
  resourceId : Nat
  capacityInBytes : Nat
  resourceSize : Nat
  allocations : List Allocation
deriving DecidableEq

/-- Key of the reusable-command-list cache (`PooledUploadHeap::ReusableCopyKey`):
destination resource, destination offset, and source size. -/
structure ReusableCopyKey where
  dstResource : Nat
  dstOffset : Nat
  srcSizeInBytes : Nat
deriving DecidableEq

/-- One prerecorded copy command list
(`PooledUploadHeap::ReusableCopyCommandListState`).  `entryId` models the
identity of the `std::list` node (what the cache's iterators denote),
`allocId` the `Allocation*` it pins, and `chunkResourceId` the raw
`ID3D12Resource*` of the staging chunk it copies from. -/
structure ReusableEntry where
  entryId : Nat
  allocId : Nat
  chunkResourceId : Nat
deriving DecidableEq

/-- The mutable state of a `PooledUploadHeap`.  The cache is an association
list from keys to entry ids (modelling `m_reusableCommandListsCache`, an
unordered map from key to list iterator).  The `next*` counters mint fresh
identities for allocations, cache entries and chunk resources. -/
structure HeapState where
  chunks : List Chunk
  totalCapacity : Nat
  reusableCommandLists : List ReusableEntry
  reusableCommandListsCache : List (ReusableCopyKey × Nat)
  nextAllocId : Nat
  nextEntryId : Nat
  nextResourceId : Nat
deriving DecidableEq

/-- Configuration constants of the upload heap.  `c_allocationAlignment` and
`c_minChunkSize` live in `PooledUploadHeap.h`, which is not part of the
excerpt; the spec fixes the alignment to be a power-of-two constant and the
development is parametric in all three values. -/
structure Config where
  alignment : Nat
  minChunkSize : Nat
  maxReusableCommandLists : Nat
deriving DecidableEq

/-- `Align` from `PooledUploadHeap.cpp`:
`(offset + alignment - 1) & ~(alignment - 1)`.  For the power-of-two
alignments the heap is instantiated with, masking off the low bits rounds
`offset + alignment - 1` down to a multiple of `alignment`, which is what
this arithmetic form computes. -/
def Align (offset alignment : Nat) : Nat :=
  (offset + alignment - 1) / alignment * alignment

/-- One byte past the end of an allocation's range. -/
def allocEnd (a : Allocation) : Nat :=
  a.offsetInChunk + a.sizeInBytes

/-- `PooledUploadHeap::FindOffsetForAllocation`: ring-buffer placement of
`sizeInBytes` bytes inside `chunk`, or `none` if the chunk cannot take the
allocation. -/
def FindOffsetForAllocation (alignment : Nat) (chunk : Chunk) (sizeInBytes : Nat) :
    Option Nat :=
  if chunk.capacityInBytes < sizeInBytes then
    -- This chunk isn't even big enough to accommodate this allocation
    none
  else if h : chunk.allocations = [] then
    -- The entire chunk is empty - allocate from the beginning
    some 0
  else
    let lastAllocation := chunk.allocations.getLast h
    let newAllocationBegin :=
      Align (lastAllocation.offsetInChunk + lastAllocation.sizeInBytes) alignment
    if newAllocationBegin + sizeInBytes < newAllocationBegin then
      -- Overflow
      none
    else
      let firstAllocation := chunk.allocations.head h
      if firstAllocation.offsetInChunk ≤ lastAllocation.offsetInChunk then
        -- Free space at the beginning and end of the chunk, but not the middle
        if newAllocationBegin + sizeInBytes ≤ chunk.capacityInBytes then
          some newAllocationBegin
        else if sizeInBytes ≤ firstAllocation.offsetInChunk then
          some 0
        else
          none
      else
        -- Free space in the middle of the chunk, but not at the edges
        if newAllocationBegin + sizeInBytes ≤ firstAllocation.offsetInChunk then
          some newAllocationBegin
        else
          none

/-- The placement rule for a single chunk exactly as the spec's §4.2 states
it (steps 1-3): skip a too-small chunk; an empty chunk yields offset 0;
otherwise the candidate is `align(last.offset + last.size)` with an
overflow guard, Case A (`first.offset ≤ last.offset`) grants the candidate
when it fits before the capacity and otherwise wraps to 0 when the size
fits before the first allocation, and Case B grants the candidate only
when it fits before the first allocation. -/
def specFindOffset (alignment : Nat) (chunk : Chunk) (size : Nat) : Option Nat :=
  if chunk.capacityInBytes < size then
    none
  else if h : chunk.allocations = [] then
    some 0
  else
    let first := chunk.allocations.head h
    let last := chunk.allocations.getLast h
    let candidate := Align (last.offsetInChunk + last.sizeInBytes) alignment
    if candidate + size < candidate then
      none
    else if first.offsetInChunk ≤ last.offsetInChunk then
      if candidate + size ≤ chunk.capacityInBytes then some candidate
      else if size ≤ first.offsetInChunk then some 0
      else none
    else
      if candidate + size ≤ first.offsetInChunk then some candidate
      else none

/-- Outcome of a fallible state-mutating call: `ok` carries the new state,
`err` carries the state left behind by a propagated exception
(`ORT_THROW_IF_FAILED` or an executor failure). -/
inductive ReserveResult where
  | ok (st : HeapState) (chunkIdx : Nat) (offset : Nat)
  | err (st : HeapState)
deriving DecidableEq

/-- Failure oracle for the external device/executor calls made during one
public operation, together with the executor's current completion event
(`GetCurrentCompletionEvent`) and the signalled-predicate on events
(`GpuEvent::IsSignaled`), both fixed for the duration of the call. -/
structure Env where
  chunkOk : Bool
  allocatorOk : Bool
  listOk : Bool
  mapOk : Bool
  copyOk : Bool
  execOk : Bool
  signaled : Nat → Bool
  ev : Nat

/-- Index of the first chunk accepting the allocation, with its offset. -/
def findChunkOffset (alignment : Nat) : List Chunk → Nat → Option (Nat × Nat)
  | [], _ => none
  | c :: cs, s =>
    match FindOffsetForAllocation alignment c s with
    | some off => some (0, off)
    | none => (findChunkOffset alignment cs s).map (fun p => (p.1 + 1, p.2))

/-- `PooledUploadHeap::Reserve`: find the first chunk with room, else create
a new chunk of size `max({m_totalCapacity, c_minChunkSize, sizeInBytes})`,
append it and allocate at its offset 0.  A refused
`CreateCommittedResource` (modelled by `env.chunkOk = false`) throws before
the chunk list or the total capacity is touched. -/
def reserve (cfg : Config) (env : Env) (st : HeapState) (sizeInBytes : Nat) :
    ReserveResult :=
  match findChunkOffset cfg.alignment st.chunks sizeInBytes with
  | some (i, off) => .ok st i off
  | none =>
    if env.chunkOk then
      let newChunkSize := max (max st.totalCapacity cfg.minChunkSize) sizeInBytes
      let c : Chunk := ⟨st.nextResourceId, newChunkSize, newChunkSize, []⟩
      .ok { st with
              chunks := st.chunks ++ [c],
              totalCapacity := st.totalCapacity + newChunkSize,
              nextResourceId := st.nextResourceId + 1 }
        st.chunks.length 0
    else
      .err st

/-- Step 4 of the spec's placement algorithm, written from the spec's words:
if some chunk accepts the request the first such chunk (in iteration order)
is used at the offset its placement rule returns; otherwise a new chunk of
size `max(current total capacity, minChunkSize, requested size)` is
appended and offset 0 in it is returned. -/
def specReserve (cfg : Config) (env : Env) (st : HeapState) (size : Nat) :
    ReserveResult :=
  match findChunkOffset cfg.alignment st.chunks size with
  | some (i, off) => .ok st i off
  | none =>
    if env.chunkOk then
      let newSize := max (max st.totalCapacity cfg.minChunkSize) size
      .ok { st with
              chunks := st.chunks ++ [⟨st.nextResourceId, newSize, newSize, []⟩],
              totalCapacity := st.totalCapacity + newSize,
              nextResourceId := st.nextResourceId + 1 }
        st.chunks.length 0
    else
      .err st

/-- Replace the `i`-th element of a list by `f` of it (used to model the
in-place mutation of the chunk `Reserve` returns a pointer to). -/
def modifyNth (f : α → α) : Nat → List α → List α
  | _, [] => []
  | 0, x :: xs => f x :: xs
  | n + 1, x :: xs => x :: modifyNth f n xs

/-- Append an allocation record to the `i`-th chunk
(`chunk->allocations.push_back(...)`). -/
def pushAlloc (st : HeapState) (i : Nat) (a : Allocation) : HeapState :=
  { st with
      chunks := modifyNth (fun c => { c with allocations := c.allocations ++ [a] }) i st.chunks }

/-- Clear the `locked` flag of the allocation the evicted command list
points to (`m_reusableCommandLists.front().allocation->locked = false`). -/
def setUnlocked (aid : Nat) (st : HeapState) : HeapState :=
  { st with
      chunks := st.chunks.map fun c =>
        { c with allocations := c.allocations.map fun a =>
            if a.allocId = aid then { a with locked := false } else a } }

/-- Refresh the done event of the allocation a cached command list pins
(`cacheIter->second->allocation->doneEvent = ...`). -/
def setDoneEvent (aid ev : Nat) (st : HeapState) : HeapState :=
  { st with
      chunks := st.chunks.map fun c =>
        { c with allocations := c.allocations.map fun a =>
            if a.allocId = aid then { a with doneEvent := ev } else a } }

/-- Per-chunk body of `PooledUploadHeap::ReclaimAllocations`: `remove_if`
drops allocations that are unlocked and whose done event has signalled,
keeping everything else. -/
def reclaimChunk (signaled : Nat → Bool) (c : Chunk) : Chunk :=
  { c with allocations := c.allocations.filter fun a => a.locked || !signaled a.doneEvent }

/-- `PooledUploadHeap::ReclaimAllocations` over every chunk. -/
def reclaimAllocations (signaled : Nat → Bool) (st : HeapState) : HeapState :=
  { st with chunks := st.chunks.map (reclaimChunk signaled) }

/-- Lookup in the reusable-command-list cache (`unordered_map::find`). -/
def lookupCache (cache : List (ReusableCopyKey × Nat)) (k : ReusableCopyKey) : Option Nat :=
  match cache with
  | [] => none
  | (k2, v) :: rest => if k2 = k then some v else lookupCache rest k

/-- Erase a key from the cache (`unordered_map::erase`); erasing an absent
key removes nothing. -/
def eraseCache (cache : List (ReusableCopyKey × Nat)) (k : ReusableCopyKey) :
    List (ReusableCopyKey × Nat) :=
  cache.filter fun p => p.1 ≠ k

/-- Resolve an `Allocation*` by the identity of the allocation it points to. -/
def findAllocation (st : HeapState) (aid : Nat) : Option Allocation :=
  st.chunks.findSome? fun c => c.allocations.find? fun a => a.allocId == aid

/-- Resolve a raw `ID3D12Resource*` of a staging chunk by its identity. -/
def findChunkByResource (st : HeapState) (rid : Nat) : Option Chunk :=
  st.chunks.find? fun c => c.resourceId == rid

/-- Outcome of one public upload-heap call.  `ok` carries the new state, the
returned completion event, and the identity of the cached command list the
call ended up executing (if any); `err` carries the state a propagated
exception leaves behind; `ub` marks a path where the C++ dereferences an
invalidated iterator or pops an empty list, i.e. undefined behaviour. -/
inductive OpOutcome where
  | ok (st : HeapState) (retEvent : Nat) (executedEntry : Option Nat)
  | err (st : HeapState)
  | ub
deriving DecidableEq

/-- `PooledUploadHeap::BeginUploadToGpu`: reclaim, reserve, map + copy +
unmap, issue `CopyBufferRegion`, then record the allocation (unlocked) with
the executor's current completion event and return that event. -/
def beginUploadToGpu (cfg : Config) (env : Env) (st : HeapState)
    (dst dstOffset srcSize : Nat) : OpOutcome :=
  let _ := dst
  let _ := dstOffset
  let st1 := reclaimAllocations env.signaled st
  match reserve cfg env st1 srcSize with
  | .err st2 => .err st2
  | .ok st2 i off =>
    if !env.mapOk then .err st2
    else if !env.copyOk then .err st2
    else
      let doneEvent := env.ev
      let st3 :=
        { pushAlloc st2 i ⟨st2.nextAllocId, srcSize, off, doneEvent, false⟩ with
            nextAllocId := st2.nextAllocId + 1 }
      .ok st3 doneEvent none

/-- The eviction block of `BeginReusableUploadToGpu` (source lines 212-219):
on a cache miss with a full LRU list, queue the front entry's references,
unlock its staging allocation, pop it, and call
`m_reusableCommandListsCache.erase(key)` — note the source erases the
looked-up `key` (absent, since this is a miss), not the evicted entry's
key.  Returns `none` when the C++ would call `front()` on an empty list. -/
def evictStep (cfg : Config) (st : HeapState) (key : ReusableCopyKey) :
    Option HeapState :=
  if lookupCache st.reusableCommandListsCache key = none ∧
      st.reusableCommandLists.length = cfg.maxReusableCommandLists then
    match st.reusableCommandLists with
    | [] => none
    | e :: rest =>
      let st2 := setUnlocked e.allocId st
      some { st2 with
               reusableCommandLists := rest,
               reusableCommandListsCache := eraseCache st2.reusableCommandListsCache key }
  else
    some st

/-- `PooledUploadHeap::BeginReusableUploadToGpu`: look the key up, evict on a
miss with a full LRU list, reclaim, then either record + execute a fresh
command list (miss: reserve, create allocator and list, map + copy, record,
push the locked allocation, execute, append to the LRU list and index the
key) or re-execute the cached one (hit: map + copy at the stored offset,
execute, refresh the pinned allocation's done event). -/
def beginReusableUploadToGpu (cfg : Config) (env : Env) (st : HeapState)
    (dst dstOffset srcSize : Nat) : OpOutcome :=
  let key : ReusableCopyKey := ⟨dst, dstOffset, srcSize⟩
  let cacheHit := lookupCache st.reusableCommandListsCache key
  match evictStep cfg st key with
  | none => .ub
  | some stE =>
    let stR := reclaimAllocations env.signaled stE
    match cacheHit with
    | none =>
      match reserve cfg env stR srcSize with
      | .err st2 => .err st2
      | .ok st2 i off =>
        if !env.allocatorOk then .err st2
        else if !env.listOk then .err st2
        else if !env.mapOk then .err st2
        else
          let doneEvent := env.ev
          let aid := st2.nextAllocId
          let st3 :=
            { pushAlloc st2 i ⟨aid, srcSize, off, doneEvent, true⟩ with
                nextAllocId := aid + 1 }
          match st3.chunks.get? i with
          | none => .ub
          | some c =>
            let entry : ReusableEntry := ⟨st3.nextEntryId, aid, c.resourceId⟩
            if !env.execOk then
              -- ExecuteCommandList runs after the allocation was pushed but
              -- before the entry joins the LRU list and the cache
              .err st3
            else
              .ok { st3 with
                      reusableCommandLists := st3.reusableCommandLists ++ [entry],
                      reusableCommandListsCache :=
                        st3.reusableCommandListsCache ++ [(key, entry.entryId)],
                      nextEntryId := st3.nextEntryId + 1 }
                env.ev (some entry.entryId)
    | some eid =>
      match stR.reusableCommandLists.find? (fun e => e.entryId == eid) with
      | none => .ub
      | some e =>
        match findAllocation stR e.allocId, findChunkByResource stR e.chunkResourceId with
        | some _, some _ =>
          if !env.mapOk then .err stR
          else if !env.execOk then .err stR
          else .ok (setDoneEvent e.allocId env.ev stR) env.ev (some eid)
        | _, _ => .ub

/-- `PooledUploadHeap::Trim`: reclaim, drop every chunk whose allocation
list is empty (`remove_if` + `erase`), and recompute the total capacity. -/
def trim (signaled : Nat → Bool) (st : HeapState) : HeapState :=
  let st1 := reclaimAllocations signaled st
  let chunks := st1.chunks.filter fun c => !c.allocations.isEmpty
  { st1 with
      chunks := chunks,
      totalCapacity := (chunks.map Chunk.capacityInBytes).sum }

/-- One public call to the pooled upload heap, with the environment (failure
oracle, signalled events, current completion event) it runs under. -/
inductive PublicOp where
  | upload (env : Env) (dst dstOffset srcSize : Nat)
  | reusableUpload (env : Env) (dst dstOffset srcSize : Nat)
  | trimOp (signaled : Nat → Bool)

/-- Apply one public call.  A thrown exception propagates to the caller but
the heap object survives with the state the call left behind; an
undefined-behaviour path yields `none`. -/
def applyOp (cfg : Config) (st : HeapState) : PublicOp → Option HeapState
  | .upload env d o s =>
    match beginUploadToGpu cfg env st d o s with
    | .ok st2 _ _ => some st2
    | .err st2 => some st2
    | .ub => none
  | .reusableUpload env d o s =>
    match beginReusableUploadToGpu cfg env st d o s with
    | .ok st2 _ _ => some st2
    | .err st2 => some st2
    | .ub => none
  | .trimOp signaled => some (trim signaled st)

/-- Apply a sequence of public calls. -/
def applyOps (cfg : Config) (st : HeapState) : List PublicOp → Option HeapState
  | [] => some st
  | op :: ops =>
    match applyOp cfg st op with
    | some st2 => applyOps cfg st2 ops
    | none => none

/-- The precondition the source asserts on entry: uploads have a non-empty
source span. -/
def opValid : PublicOp → Prop
  | .upload _ _ _ s => 0 < s
  | .reusableUpload _ _ _ s => 0 < s
  | .trimOp _ => True

/-- A freshly constructed `PooledUploadHeap`: no chunks, no cached command
lists. -/
def initState : HeapState :=
  ⟨[], 0, [], [], 0, 0, 0⟩

/-- Total number of allocation records across all chunks. -/
def totalAllocCount (st : HeapState) : Nat :=
  (st.chunks.map fun c => c.allocations.length).sum

/-- Two allocations occupy disjoint byte ranges. -/
def AllocDisjoint (u v : Allocation) : Prop :=
  allocEnd u ≤ v.offsetInChunk ∨ allocEnd v ≤ u.offsetInChunk

/-- `u` ends at or before `v` starts. -/
def ARel (u v : Allocation) : Prop :=
  allocEnd u ≤ v.offsetInChunk

/-- The allocations appear in the list in increasing address order, each one
ending before the next begins. -/
def Ordered (l : List Allocation) : Prop :=
  l.Pairwise ARel

/-- The ring-buffer shape of a chunk's allocation list: in insertion order
it splits into a high part `P` followed by a wrapped low part `Q`, each
internally ordered, with all of `Q` lying below all of `P`.  A non-wrapped
list is the split with `Q = []`. -/
def RingInv (l : List Allocation) : Prop :=
  ∃ P Q, l = P ++ Q ∧ Ordered P ∧ Ordered Q ∧
    ∀ q ∈ Q, ∀ p ∈ P, allocEnd q ≤ p.offsetInChunk

/-- Geometric per-chunk facts: every allocation is non-empty, lies inside
the chunk, and starts at an aligned offset. -/
def ChunkGeom (alignment : Nat) (c : Chunk) : Prop :=
  ∀ a ∈ c.allocations,
    0 < a.sizeInBytes ∧ allocEnd a ≤ c.capacityInBytes ∧
      a.offsetInChunk % alignment = 0

/-- Every live cached command list pins an existing, still-locked staging
allocation inside the chunk whose resource it recorded. -/
def WFEntries (st : HeapState) : Prop :=
  ∀ e ∈ st.reusableCommandLists,
    ∃ c ∈ st.chunks, c.resourceId = e.chunkResourceId ∧
      ∃ a ∈ c.allocations, a.allocId = e.allocId ∧ a.locked = true

/-- The five §3 invariants exactly as the spec (and `AssertInvariants`)
state them: chunks sorted by ascending capacity, capacity equal to the
resource size, every allocation inside its chunk and aligned, no two
allocations of a chunk overlapping, and the cached total capacity equal to
the sum of chunk capacities. -/
def FiveInvariants (cfg : Config) (st : HeapState) : Prop :=
  (st.chunks.map Chunk.capacityInBytes).Pairwise (· ≤ ·) ∧
  (∀ c ∈ st.chunks, c.capacityInBytes = c.resourceSize) ∧
  (∀ c ∈ st.chunks, ∀ a ∈ c.allocations,
      a.offsetInChunk + a.sizeInBytes ≤ c.capacityInBytes ∧
      a.offsetInChunk % cfg.alignment = 0) ∧
  (∀ c ∈ st.chunks, c.allocations.Pairwise AllocDisjoint) ∧
  st.totalCapacity = (st.chunks.map Chunk.capacityInBytes).sum

/-- The inductive invariant of the pooled upload heap, strengthening the
five public invariants with the ring shape of each chunk, non-empty
allocations, well-formed command-list entries, and freshness of the minted
identities. -/
structure HeapInv (cfg : Config) (st : HeapState) : Prop where
  sorted : (st.chunks.map Chunk.capacityInBytes).Pairwise (· ≤ ·)
  capEq : ∀ c ∈ st.chunks, c.capacityInBytes = c.resourceSize
  geom : ∀ c ∈ st.chunks, ChunkGeom cfg.alignment c
  ring : ∀ c ∈ st.chunks, RingInv c.allocations
  total : st.totalCapacity = (st.chunks.map Chunk.capacityInBytes).sum
  lruBound : st.reusableCommandLists.length ≤ cfg.maxReusableCommandLists
  wfEntries : WFEntries st
  entryAllocsNodup : (st.reusableCommandLists.map ReusableEntry.allocId).Nodup
  allocFresh : ∀ c ∈ st.chunks, ∀ a ∈ c.allocations, a.allocId < st.nextAllocId
  entryFresh : ∀ e ∈ st.reusableCommandLists, e.entryId < st.nextEntryId
  resFresh : ∀ c ∈ st.chunks, c.resourceId < st.nextResourceId
  cacheFresh : ∀ kv ∈ st.reusableCommandListsCache, kv.2 < st.nextEntryId

lemma le_align (x a : Nat) (ha : 0 < a) : x ≤ Align x a := by
  have h2 := Nat.div_add_mod (x + a - 1) a
  have h3 : (x + a - 1) % a < a := Nat.mod_lt _ ha
  have h4 : a * ((x + a - 1) / a) = (x + a - 1) / a * a := Nat.mul_comm _ _
  unfold Align
  omega

lemma align_mod (x a : Nat) : Align x a % a = 0 := by
  unfold Align
  exact Nat.mul_mod_left _ _

lemma ordered_head_le {l : List Allocation} (h : l ≠ []) (ho : Ordered l) :
    ∀ a ∈ l, (l.head h).offsetInChunk ≤ a.offsetInChunk := by
  intro a ha
  have hl := List.head_cons_tail l h
  rw [← hl] at ho ha
  rcases List.mem_cons.mp ha with rfl | hmem
  · exact le_refl _
  · have := (List.pairwise_cons.mp ho).1 a hmem
    unfold ARel allocEnd at this
    omega

lemma ordered_le_last {l : List Allocation} (h : l ≠ []) (ho : Ordered l) :
    ∀ a ∈ l, allocEnd a ≤ allocEnd (l.getLast h) := by
  intro a ha
  have hl := List.dropLast_append_getLast h
  rw [← hl] at ho ha
  rcases List.mem_append.mp ha with hmem | hmem
  · have := (List.pairwise_append.mp ho).2.2 a hmem _ (List.mem_singleton_self _)
    simp only [ARel, allocEnd] at this ⊢
    omega
  · rw [List.mem_singleton.mp hmem]

lemma ordered_head_le_last {l : List Allocation} (h : l ≠ []) (ho : Ordered l) :
    (l.head h).offsetInChunk ≤ (l.getLast h).offsetInChunk :=
  ordered_head_le h ho _ (List.getLast_mem h)

lemma ordered_singleton (a : Allocation) : Ordered [a] :=
  List.pairwise_singleton _ _

lemma ringInv_of_ordered {l : List Allocation} (ho : Ordered l) : RingInv l :=
  ⟨l, [], by simp, ho, List.Pairwise.nil, by simp⟩

lemma ringInv_not_wrapped {l : List Allocation} (h : l ≠ []) (hr : RingInv l)
    (hsizes : ∀ a ∈ l, 0 < a.sizeInBytes)
    (hle : (l.head h).offsetInChunk ≤ (l.getLast h).offsetInChunk) :
    Ordered l := by
  obtain ⟨P, Q, rfl, hP, hQ, hcross⟩ := hr
  rcases eq_or_ne P [] with rfl | hPne
  · simpa using hQ
  rcases eq_or_ne Q [] with rfl | hQne
  · simpa using hP
  exfalso
  have hhead : (P ++ Q).head h = P.head hPne := List.head_append_of_ne_nil hPne
  have hlast : (P ++ Q).getLast h = Q.getLast hQne := List.getLast_append_of_ne_nil hQne
  have h1 : allocEnd (Q.getLast hQne) ≤ (P.head hPne).offsetInChunk :=
    hcross _ (List.getLast_mem hQne) _ (List.head_mem hPne)
  have h2 : 0 < (Q.getLast hQne).sizeInBytes :=
    hsizes _ (List.mem_append_right _ (List.getLast_mem hQne))
  rw [hhead, hlast] at hle
  simp only [allocEnd] at h1
  omega

lemma ringInv_wrapped {l : List Allocation} (h : l ≠ []) (hr : RingInv l)
    (hgt : ¬ (l.head h).offsetInChunk ≤ (l.getLast h).offsetInChunk) :
    ∃ (P Q : List Allocation) (hp : P ≠ []) (hq : Q ≠ []),
      l = P ++ Q ∧ Ordered P ∧ Ordered Q ∧
      (∀ q ∈ Q, ∀ p ∈ P, allocEnd q ≤ p.offsetInChunk) ∧
      l.head h = P.head hp ∧ l.getLast h = Q.getLast hq := by
  obtain ⟨P, Q, rfl, hP, hQ, hcross⟩ := hr
  rcases eq_or_ne P [] with rfl | hPne
  · exact absurd (by simpa using ordered_head_le_last h (by simpa using hQ)) hgt
  rcases eq_or_ne Q [] with rfl | hQne
  · exact absurd (by simpa using ordered_head_le_last h (by simpa using hP)) hgt
  exact ⟨P, Q, hPne, hQne, rfl, hP, hQ, hcross,
    List.head_append_of_ne_nil hPne, List.getLast_append_of_ne_nil hQne⟩

lemma ringInv_disjoint {l : List Allocation} (hr : RingInv l) :
    l.Pairwise AllocDisjoint := by
  obtain ⟨P, Q, rfl, hP, hQ, hcross⟩ := hr
  rw [List.pairwise_append]
  refine ⟨hP.imp (fun h => Or.inl h), hQ.imp (fun h => Or.inl h), ?_⟩
  intro p hp q hq
  exact Or.inr (hcross q hq p hp)

lemma ringInv_filter (p : Allocation → Bool) {l : List Allocation} (hr : RingInv l) :
    RingInv (l.filter p) := by
  obtain ⟨P, Q, rfl, hP, hQ, hcross⟩ := hr
  refine ⟨P.filter p, Q.filter p, by rw [List.filter_append], hP.filter p, hQ.filter p, ?_⟩
  intro q hq pp hpp
  exact hcross q (List.mem_of_mem_filter hq) pp (List.mem_of_mem_filter hpp)

lemma ringInv_map (f : Allocation → Allocation)
    (hf : ∀ a, (f a).offsetInChunk = a.offsetInChunk ∧ (f a).sizeInBytes = a.sizeInBytes)
    {l : List Allocation} (hr : RingInv l) : RingInv (l.map f) := by
  obtain ⟨P, Q, rfl, hP, hQ, hcross⟩ := hr
  have hend : ∀ a, allocEnd (f a) = allocEnd a := by
    intro a; simp only [allocEnd, (hf a).1, (hf a).2]
  refine ⟨P.map f, Q.map f, List.map_append _ _ _, ?_, ?_, ?_⟩
  · exact hP.map f (fun a b hab => by simpa only [ARel, hend, (hf b).1] using hab)
  · exact hQ.map f (fun a b hab => by simpa only [ARel, hend, (hf b).1] using hab)
  · intro q hq pp hpp
    obtain ⟨q0, hq0, rfl⟩ := List.mem_map.mp hq
    obtain ⟨p0, hp0, rfl⟩ := List.mem_map.mp hpp
    rw [hend, (hf p0).1]
    exact hcross q0 hq0 p0 hp0

lemma findOffset_sound {alignment : Nat} (ha : 0 < alignment) {c : Chunk} {s off : Nat}
    (hs : 0 < s) (hgeom : ChunkGeom alignment c) (hring : RingInv c.allocations)
    (h : FindOffsetForAllocation alignment c s = some off) :
    off % alignment = 0 ∧ off + s ≤ c.capacityInBytes ∧
    ∀ (n e : Nat) (k : Bool),
      RingInv (c.allocations ++ [⟨n, s, off, e, k⟩]) := by
  have hsizes : ∀ a ∈ c.allocations, 0 < a.sizeInBytes := fun a hm => (hgeom a hm).1
  unfold FindOffsetForAllocation at h
  by_cases hcap : c.capacityInBytes < s
  · simp [hcap] at h
  rw [if_neg hcap] at h
  by_cases hemp : c.allocations = []
  · rw [dif_pos hemp] at h
    injection h with h
    subst h
    refine ⟨Nat.zero_mod _, by omega, fun n e k => ?_⟩
    rw [hemp]
    exact ringInv_of_ordered (by simpa using ordered_singleton _)
  rw [dif_neg hemp] at h
  simp only [] at h
  set lst := c.allocations.getLast hemp with hlstdef
  set fst := c.allocations.head hemp with hfstdef
  set nab := Align (lst.offsetInChunk + lst.sizeInBytes) alignment with hnabdef
  have hnabge : lst.offsetInChunk + lst.sizeInBytes ≤ nab := le_align _ _ ha
  have hnabmod : nab % alignment = 0 := align_mod _ _
  rw [if_neg (by omega : ¬ nab + s < nab)] at h
  have hlstmem : lst ∈ c.allocations := List.getLast_mem hemp
  have hfstmem : fst ∈ c.allocations := List.head_mem hemp
  by_cases hAB : fst.offsetInChunk ≤ lst.offsetInChunk
  · rw [if_pos hAB] at h
    have hord : Ordered c.allocations := ringInv_not_wrapped hemp hring hsizes hAB
    by_cases h1 : nab + s ≤ c.capacityInBytes
    · rw [if_pos h1] at h
      injection h with h
      subst h
      refine ⟨hnabmod, h1, fun n e k => ?_⟩
      refine ringInv_of_ordered ?_
      rw [Ordered, List.pairwise_append]
      refine ⟨hord, List.pairwise_singleton _ _, ?_⟩
      intro a hma b hmb
      rw [List.mem_singleton.mp hmb]
      have h6 := ordered_le_last hemp hord a hma
      rw [← hlstdef] at h6
      simp only [ARel, allocEnd] at h6 ⊢
      omega
    · rw [if_neg h1] at h
      by_cases h2 : s ≤ fst.offsetInChunk
      · rw [if_pos h2] at h
        injection h with h
        subst h
        refine ⟨Nat.zero_mod _, by omega, fun n e k => ?_⟩
        refine ⟨c.allocations, [⟨n, s, 0, e, k⟩], rfl, hord, ordered_singleton _, ?_⟩
        intro q hq p hp
        rw [List.mem_singleton.mp hq]
        have h7 := ordered_head_le hemp hord p hp
        rw [← hfstdef] at h7
        simp only [allocEnd]
        omega
      · rw [if_neg h2] at h
        exact absurd h (by simp)
  · rw [if_neg hAB] at h
    obtain ⟨P, Q, hPne, hQne, hsplit, hP, hQ, hcross, hhead, hlast⟩ :=
      ringInv_wrapped hemp hring hAB
    rw [← hlstdef] at hlast
    rw [← hfstdef] at hhead
    by_cases h3 : nab + s ≤ fst.offsetInChunk
    · rw [if_pos h3] at h
      injection h with h
      subst h
      have hfstcap : fst.offsetInChunk ≤ c.capacityInBytes := by
        have h8 := (hgeom fst hfstmem).2.1
        simp only [allocEnd] at h8
        omega
      refine ⟨hnabmod, by omega, fun n e k => ?_⟩
      have hQend : ∀ q ∈ Q, allocEnd q ≤ nab := by
        intro q hq
        have h4 := ordered_le_last hQne hQ q hq
        rw [← hlast] at h4
        simp only [allocEnd] at h4 ⊢
        omega
      have hPoff : ∀ p ∈ P, fst.offsetInChunk ≤ p.offsetInChunk := by
        intro p hp
        have h5 := ordered_head_le hPne hP p hp
        rw [← hhead] at h5
        exact h5
      refine ⟨P, Q ++ [⟨n, s, nab, e, k⟩], by rw [hsplit, List.append_assoc], hP, ?_, ?_⟩
      · rw [Ordered, List.pairwise_append]
        refine ⟨hQ, List.pairwise_singleton _ _, ?_⟩
        intro a hma b hmb
        rw [List.mem_singleton.mp hmb]
        have h9 := hQend a hma
        simp only [ARel, allocEnd] at h9 ⊢
        omega
      · intro q hq p hp
        rcases List.mem_append.mp hq with hq2 | hq2
        · exact hcross q hq2 p hp
        · rw [List.mem_singleton.mp hq2]
          have h10 := hPoff p hp
          simp only [allocEnd]
          omega
    · rw [if_neg h3] at h
      exact absurd h (by simp)

lemma length_modifyNth (f : α → α) : ∀ (i : Nat) (l : List α),
    (modifyNth f i l).length = l.length := by
  intro i l
  induction l generalizing i with
  | nil => cases i <;> rfl
  | cons x xs ih =>
    cases i with
    | zero => simp [modifyNth]
    | succ n => simp [modifyNth, ih]

lemma map_modifyNth (g : α → β) (f : α → α) (hf : ∀ x, g (f x) = g x) :
    ∀ (i : Nat) (l : List α), (modifyNth f i l).map g = l.map g := by
  intro i l
  induction l generalizing i with
  | nil => cases i <;> rfl
  | cons x xs ih =>
    cases i with
    | zero => simp [modifyNth, hf]
    | succ n => simp [modifyNth, ih]

lemma mem_modifyNth {f : α → α} :
    ∀ {i : Nat} {l : List α} {x : α}, x ∈ modifyNth f i l →
      x ∈ l ∨ ∃ y, l[i]? = some y ∧ x = f y := by
  intro i l
  induction l generalizing i with
  | nil => intro x hx; cases i <;> simp [modifyNth] at hx
  | cons z zs ih =>
    intro x hx
    cases i with
    | zero =>
      simp only [modifyNth, List.mem_cons] at hx
      rcases hx with rfl | hx
      · exact Or.inr ⟨z, by simp, rfl⟩
      · exact Or.inl (List.mem_cons_of_mem _ hx)
    | succ n =>
      simp only [modifyNth, List.mem_cons] at hx
      rcases hx with rfl | hx
      · exact Or.inl (List.mem_cons_self _ _)
      · rcases ih hx with h | ⟨y, hy, rfl⟩
        · exact Or.inl (List.mem_cons_of_mem _ h)
        · exact Or.inr ⟨y, by simpa using hy, rfl⟩

lemma mem_modifyNth_of_mem {f : α → α} :
    ∀ {i : Nat} {l : List α} {x : α}, x ∈ l →
      x ∈ modifyNth f i l ∨ f x ∈ modifyNth f i l := by
  intro i l
  induction l generalizing i with
  | nil => intro x hx; cases hx
  | cons z zs ih =>
    intro x hx
    rcases List.mem_cons.mp hx with rfl | hx
    · cases i with
      | zero => exact Or.inr (by simp [modifyNth])
      | succ n => exact Or.inl (by simp [modifyNth])
    · cases i with
      | zero => exact Or.inl (by simp [modifyNth, hx])
      | succ n =>
        rcases ih (i := n) hx with h | h
        · exact Or.inl (by simp [modifyNth, h])
        · exact Or.inr (by simp [modifyNth, h])

lemma getElem?_modifyNth_self {f : α → α} :
    ∀ {i : Nat} {l : List α} {y : α}, l[i]? = some y →
      (modifyNth f i l)[i]? = some (f y) := by
  intro i l
  induction l generalizing i with
  | nil => intro y hy; simp at hy
  | cons z zs ih =>
    intro y hy
    cases i with
    | zero => simp at hy; simp [modifyNth, hy]
    | succ n =>
      simp only [List.getElem?_cons_succ] at hy
      simpa [modifyNth] using ih hy

lemma sum_map_modifyNth (g : α → Nat) (f : α → α) (d : Nat)
    (hf : ∀ x, g (f x) = g x + d) :
    ∀ (i : Nat) (l : List α), i < l.length →
      ((modifyNth f i l).map g).sum = (l.map g).sum + d := by
  intro i l
  induction l generalizing i with
  | nil => intro h; simp at h
  | cons z zs ih =>
    intro h
    cases i with
    | zero => simp [modifyNth, hf]; omega
    | succ n =>
      have := ih (i := n) (by simpa using h)
      simp [modifyNth, this]
      omega

lemma heapInv_mapAllocs (cfg : Config) (st : HeapState) (hI : HeapInv cfg st)
    (f : Allocation → Allocation)
    (hoff : ∀ a, (f a).offsetInChunk = a.offsetInChunk)
    (hsize : ∀ a, (f a).sizeInBytes = a.sizeInBytes)
    (hid : ∀ a, (f a).allocId = a.allocId)
    (st2 : HeapState)
    (hchunks : st2.chunks = st.chunks.map fun c =>
      { c with allocations := c.allocations.map f })
    (htotal : st2.totalCapacity = st.totalCapacity)
    (hnextA : st2.nextAllocId = st.nextAllocId)
    (hnextR : st2.nextResourceId = st.nextResourceId)
    (hlru : st2.reusableCommandLists.length ≤ cfg.maxReusableCommandLists)
    (hwf : WFEntries st2)
    (hnodup : (st2.reusableCommandLists.map ReusableEntry.allocId).Nodup)
    (hentryFresh : ∀ e ∈ st2.reusableCommandLists, e.entryId < st2.nextEntryId)
    (hcacheFresh : ∀ kv ∈ st2.reusableCommandListsCache, kv.2 < st2.nextEntryId) :
    HeapInv cfg st2 := by
  have hmapcap : st2.chunks.map Chunk.capacityInBytes = st.chunks.map Chunk.capacityInBytes := by
    rw [hchunks, List.map_map]
    rfl
  refine ⟨?_, ?_, ?_, ?_, ?_, hlru, hwf, hnodup, ?_, hentryFresh, ?_, hcacheFresh⟩
  · rw [hmapcap]; exact hI.sorted
  · intro c hc
    rw [hchunks] at hc
    obtain ⟨c0, hc0, rfl⟩ := List.mem_map.mp hc
    exact hI.capEq c0 hc0
  · intro c hc
    rw [hchunks] at hc
    obtain ⟨c0, hc0, rfl⟩ := List.mem_map.mp hc
    intro a hma
    obtain ⟨a0, ha0, rfl⟩ := List.mem_map.mp hma
    have := hI.geom c0 hc0 a0 ha0
    simp only [allocEnd, hoff, hsize] at this ⊢
    exact this
  · intro c hc
    rw [hchunks] at hc
    obtain ⟨c0, hc0, rfl⟩ := List.mem_map.mp hc
    exact ringInv_map f (fun a => ⟨hoff a, hsize a⟩) (hI.ring c0 hc0)
  · rw [htotal, hmapcap]; exact hI.total
  · intro c hc
    rw [hchunks] at hc
    obtain ⟨c0, hc0, rfl⟩ := List.mem_map.mp hc
    intro a hma
    obtain ⟨a0, ha0, rfl⟩ := List.mem_map.mp hma
    rw [hid, hnextA]
    exact hI.allocFresh c0 hc0 a0 ha0
  · intro c hc
    rw [hchunks] at hc
    obtain ⟨c0, hc0, rfl⟩ := List.mem_map.mp hc
    rw [hnextR]
    exact hI.resFresh c0 hc0

lemma setDoneEvent_inv (cfg : Config) (aid ev : Nat) (st : HeapState)
    (hI : HeapInv cfg st) : HeapInv cfg (setDoneEvent aid ev st) := by
  refine heapInv_mapAllocs cfg st hI _
    (fun a => by by_cases h : a.allocId = aid <;> simp [h])
    (fun a => by by_cases h : a.allocId = aid <;> simp [h])
    (fun a => by by_cases h : a.allocId = aid <;> simp [h])
    _ rfl rfl rfl rfl hI.lruBound ?_ hI.entryAllocsNodup hI.entryFresh hI.cacheFresh
  intro e he
  simp only [setDoneEvent] at he ⊢
  obtain ⟨c, hc, hcres, a, hma, haid, hlocked⟩ := hI.wfEntries e he
  refine ⟨{ c with allocations := c.allocations.map fun a =>
      if a.allocId = aid then { a with doneEvent := ev } else a },
      List.mem_map.mpr ⟨c, hc, rfl⟩, hcres, ?_⟩
  refine ⟨if a.allocId = aid then { a with doneEvent := ev } else a,
    List.mem_map.mpr ⟨a, hma, rfl⟩, ?_⟩
  by_cases h : a.allocId = aid
  · simp only [if_pos h]
    exact ⟨haid, hlocked⟩
  · simp only [if_neg h]
    exact ⟨haid, hlocked⟩

lemma totalAllocCount_setUnlocked (aid : Nat) (st : HeapState) :
    totalAllocCount (setUnlocked aid st) = totalAllocCount st := by
  simp only [totalAllocCount, setUnlocked, List.map_map]
  congr 1
  refine List.map_congr_left ?_
  intro c _
  simp [Function.comp]

lemma totalAllocCount_setDoneEvent (aid ev : Nat) (st : HeapState) :
    totalAllocCount (setDoneEvent aid ev st) = totalAllocCount st := by
  simp only [totalAllocCount, setDoneEvent, List.map_map]
  congr 1
  refine List.map_congr_left ?_
  intro c _
  simp [Function.comp]

lemma totalAllocCount_reclaim_le (sig : Nat → Bool) (st : HeapState) :
    totalAllocCount (reclaimAllocations sig st) ≤ totalAllocCount st := by
  simp only [totalAllocCount, reclaimAllocations, List.map_map]
  refine List.sum_le_sum ?_
  intro c _
  simp only [Function.comp, reclaimChunk]
  exact List.length_filter_le _ _

lemma reclaim_inv (cfg : Config) (sig : Nat → Bool) (st : HeapState)
    (hI : HeapInv cfg st) : HeapInv cfg (reclaimAllocations sig st) := by
  have hmapcap : (st.chunks.map (reclaimChunk sig)).map Chunk.capacityInBytes =
      st.chunks.map Chunk.capacityInBytes := by
    rw [List.map_map]; rfl
  refine ⟨?_, ?_, ?_, ?_, ?_, hI.lruBound, ?_, hI.entryAllocsNodup, ?_,
    hI.entryFresh, ?_, hI.cacheFresh⟩
  · show ((st.chunks.map (reclaimChunk sig)).map Chunk.capacityInBytes).Pairwise _
    rw [hmapcap]; exact hI.sorted
  · intro c hc
    obtain ⟨c0, hc0, rfl⟩ := List.mem_map.mp hc
    exact hI.capEq c0 hc0
  · intro c hc
    obtain ⟨c0, hc0, rfl⟩ := List.mem_map.mp hc
    intro a hma
    exact hI.geom c0 hc0 a (List.mem_of_mem_filter hma)
  · intro c hc
    obtain ⟨c0, hc0, rfl⟩ := List.mem_map.mp hc
    exact ringInv_filter _ (hI.ring c0 hc0)
  · show st.totalCapacity = ((st.chunks.map (reclaimChunk sig)).map Chunk.capacityInBytes).sum
    rw [hmapcap]; exact hI.total
  · intro e he
    obtain ⟨c, hc, hcres, a, hma, haid, hlocked⟩ := hI.wfEntries e he
    refine ⟨reclaimChunk sig c, List.mem_map.mpr ⟨c, hc, rfl⟩, hcres, a, ?_, haid, hlocked⟩
    exact List.mem_filter.mpr ⟨hma, by simp [hlocked]⟩
  · intro c hc
    obtain ⟨c0, hc0, rfl⟩ := List.mem_map.mp hc
    intro a hma
    exact hI.allocFresh c0 hc0 a (List.mem_of_mem_filter hma)
  · intro c hc
    obtain ⟨c0, hc0, rfl⟩ := List.mem_map.mp hc
    exact hI.resFresh c0 hc0

lemma lookupCache_eraseCache_self (cache : List (ReusableCopyKey × Nat))
    (k : ReusableCopyKey) : lookupCache (eraseCache cache k) k = none := by
  induction cache with
  | nil => rfl
  | cons p rest ih =>
    by_cases h : p.1 = k
    · simp only [eraseCache, List.filter_cons]
      rw [if_neg (by simp [h])]
      exact ih
    · simp only [eraseCache, List.filter_cons]
      rw [if_pos (by simp [h])]
      simp only [lookupCache, if_neg h]
      exact ih

lemma lookupCache_append_left_none (l1 l2 : List (ReusableCopyKey × Nat))
    (k : ReusableCopyKey) (h : lookupCache l1 k = none) :
    lookupCache (l1 ++ l2) k = lookupCache l2 k := by
  induction l1 with
  | nil => rfl
  | cons p rest ih =>
    simp only [lookupCache] at h ⊢
    by_cases hp : p.1 = k
    · rw [if_pos hp] at h; cases h
    · rw [if_neg hp] at h ⊢
      exact ih h

lemma evictStep_spec (cfg : Config) (key : ReusableCopyKey) (st stE : HeapState)
    (hI : HeapInv cfg st) (h : evictStep cfg st key = some stE) :
    HeapInv cfg stE ∧ stE.nextAllocId = st.nextAllocId ∧
    stE.nextEntryId = st.nextEntryId ∧ stE.nextResourceId = st.nextResourceId ∧
    totalAllocCount stE = totalAllocCount st ∧
    (lookupCache st.reusableCommandListsCache key = none →
      stE.reusableCommandLists.length < cfg.maxReusableCommandLists) ∧
    (lookupCache st.reusableCommandListsCache key ≠ none → stE = st) ∧
    lookupCache stE.reusableCommandListsCache key =
      lookupCache st.reusableCommandListsCache key := by
  unfold evictStep at h
  by_cases hc : lookupCache st.reusableCommandListsCache key = none ∧
      st.reusableCommandLists.length = cfg.maxReusableCommandLists
  · rw [if_pos hc] at h
    cases hlist : st.reusableCommandLists with
    | nil => rw [hlist] at h; cases h
    | cons e rest =>
      rw [hlist] at h
      injection h with h
      subst h
      have hmax : rest.length + 1 = cfg.maxReusableCommandLists := by
        have := hc.2; rw [hlist] at this; simpa using this
      have hnodupTail : (rest.map ReusableEntry.allocId).Nodup := by
        have := hI.entryAllocsNodup
        rw [hlist] at this
        exact (List.nodup_cons.mp (by simpa using this)).2
      have heNotTail : e.allocId ∉ rest.map ReusableEntry.allocId := by
        have := hI.entryAllocsNodup
        rw [hlist] at this
        exact (List.nodup_cons.mp (by simpa using this)).1
      refine ⟨?_, rfl, rfl, rfl, ?_, ?_, ?_, ?_⟩
      · refine heapInv_mapAllocs cfg st hI
          (fun a => if a.allocId = e.allocId then { a with locked := false } else a)
          (fun a => by by_cases hb : a.allocId = e.allocId <;> simp [hb])
          (fun a => by by_cases hb : a.allocId = e.allocId <;> simp [hb])
          (fun a => by by_cases hb : a.allocId = e.allocId <;> simp [hb])
          _ rfl rfl rfl rfl ?_ ?_ ?_ ?_ ?_
        · show rest.length ≤ _
          omega
        · intro e2 he2
          show ∃ c ∈ (setUnlocked e.allocId st).chunks, _
          have he2' : e2 ∈ st.reusableCommandLists := by
            rw [hlist]; exact List.mem_cons_of_mem _ he2
          obtain ⟨c, hcm, hcres, a, hma, haid, hlocked⟩ := hI.wfEntries e2 he2'
          have hne : a.allocId ≠ e.allocId := by
            intro heq
            exact heNotTail (heq ▸ haid ▸ List.mem_map.mpr ⟨e2, he2, rfl⟩)
          refine ⟨{ c with allocations := c.allocations.map fun a =>
              if a.allocId = e.allocId then { a with locked := false } else a },
              List.mem_map.mpr ⟨c, hcm, rfl⟩, hcres, ?_⟩
          refine ⟨if a.allocId = e.allocId then { a with locked := false } else a,
            List.mem_map.mpr ⟨a, hma, rfl⟩, ?_⟩
          rw [if_neg hne]
          exact ⟨haid, hlocked⟩
        · exact hnodupTail
        · intro e2 he2
          exact hI.entryFresh e2 (by rw [hlist]; exact List.mem_cons_of_mem _ he2)
        · intro kv hkv
          exact hI.cacheFresh kv (List.mem_of_mem_filter hkv)
      · show totalAllocCount (setUnlocked e.allocId st) = _
        exact totalAllocCount_setUnlocked _ _
      · intro _
        show rest.length < _
        omega
      · intro hhit
        exact absurd hc.1 hhit
      · show lookupCache (eraseCache (setUnlocked e.allocId st).reusableCommandListsCache key) key = _
        rw [lookupCache_eraseCache_self]
        exact hc.1.symm
  · rw [if_neg hc] at h
    injection h with h
    subst h
    refine ⟨hI, rfl, rfl, rfl, rfl, ?_, fun _ => rfl, rfl⟩
    intro hmiss
    have hne : st.reusableCommandLists.length ≠ cfg.maxReusableCommandLists := by
      intro heq
      exact hc ⟨hmiss, heq⟩
    have := hI.lruBound
    omega

lemma findChunkOffset_sound {a s : Nat} :
    ∀ {l : List Chunk} {i off : Nat}, findChunkOffset a l s = some (i, off) →
      ∃ c, l[i]? = some c ∧ FindOffsetForAllocation a c s = some off := by
  intro l
  induction l with
  | nil => intro i off h; cases h
  | cons c cs ih =>
    intro i off h
    unfold findChunkOffset at h
    cases hf : FindOffsetForAllocation a c s with
    | some off0 =>
      rw [hf] at h
      injection h with h
      obtain ⟨rfl, rfl⟩ := Prod.mk.inj h
      exact ⟨c, by simp, hf⟩
    | none =>
      rw [hf] at h
      cases hrec : findChunkOffset a cs s with
      | none => rw [hrec] at h; cases h
      | some p =>
        rw [hrec] at h
        injection h with h
        have h2 : (p.1 + 1, p.2) = (i, off) := h
        obtain ⟨h3, h4⟩ := Prod.mk.inj h2
        subst h3
        subst h4
        obtain ⟨c2, hc2, hfo⟩ := @ih p.1 p.2 (by rw [hrec, Prod.mk.eta])
        exact ⟨c2, by simpa using hc2, hfo⟩

lemma reserve_err_eq (cfg : Config) (env : Env) (st st2 : HeapState) (s : Nat)
    (h : reserve cfg env st s = .err st2) : st2 = st := by
  unfold reserve at h
  cases hfind : findChunkOffset cfg.alignment st.chunks s with
  | some p => rw [hfind] at h; cases h
  | none =>
    rw [hfind] at h
    by_cases hck : env.chunkOk
    · simp [hck] at h
    · simp [hck] at h
      exact h.symm

lemma reserve_ok_spec (cfg : Config) (env : Env) (st st2 : HeapState) (s i off : Nat)
    (hI : HeapInv cfg st) (hs : 0 < s)
    (h : reserve cfg env st s = .ok st2 i off) :
    HeapInv cfg st2 ∧
    (∃ c, st2.chunks[i]? = some c ∧
      FindOffsetForAllocation cfg.alignment c s = some off) ∧
    st2.reusableCommandLists = st.reusableCommandLists ∧
    st2.reusableCommandListsCache = st.reusableCommandListsCache ∧
    st2.nextAllocId = st.nextAllocId ∧ st2.nextEntryId = st.nextEntryId ∧
    totalAllocCount st2 = totalAllocCount st := by
  unfold reserve at h
  cases hfind : findChunkOffset cfg.alignment st.chunks s with
  | some p =>
    rw [hfind] at h
    injection h with h1 h2 h3
    subst h1; subst h2; subst h3
    obtain ⟨c, hc, hfo⟩ :=
      findChunkOffset_sound (l := st.chunks) (by rw [hfind, Prod.mk.eta])
    exact ⟨hI, ⟨c, hc, hfo⟩, rfl, rfl, rfl, rfl, rfl⟩
  | none =>
    rw [hfind] at h
    by_cases hck : env.chunkOk
    · rw [if_pos hck] at h
      injection h with h1 h2 h3
      subst h2; subst h3; subst h1
      set newSize := max (max st.totalCapacity cfg.minChunkSize) s with hns
      set newChunk : Chunk := ⟨st.nextResourceId, newSize, newSize, []⟩ with hnc
      have hsle : s ≤ newSize := le_max_right _ _
      have hcapsle : ∀ x ∈ st.chunks.map Chunk.capacityInBytes, x ≤ newSize := by
        intro x hx
        have h1 : x ≤ (st.chunks.map Chunk.capacityInBytes).sum := List.le_sum_of_mem hx
        have h2 : st.totalCapacity ≤ newSize := le_trans (le_max_left _ _) (le_max_left _ _)
        rw [← hI.total] at h1
        omega
      refine ⟨⟨?_, ?_, ?_, ?_, ?_, hI.lruBound, ?_, hI.entryAllocsNodup, ?_,
        hI.entryFresh, ?_, hI.cacheFresh⟩, ?_, rfl, rfl, rfl, rfl, ?_⟩
      · show ((st.chunks ++ [newChunk]).map Chunk.capacityInBytes).Pairwise (· ≤ ·)
        rw [List.map_append, List.pairwise_append]
        refine ⟨hI.sorted, List.pairwise_singleton _ _, ?_⟩
        intro x hx y hy
        rw [List.mem_singleton.mp hy]
        exact hcapsle x hx
      · intro c hc
        rcases List.mem_append.mp hc with hc2 | hc2
        · exact hI.capEq c hc2
        · rw [List.mem_singleton.mp hc2]
      · intro c hc
        rcases List.mem_append.mp hc with hc2 | hc2
        · exact hI.geom c hc2
        · rw [List.mem_singleton.mp hc2]
          intro a ha
          cases ha
      · intro c hc
        rcases List.mem_append.mp hc with hc2 | hc2
        · exact hI.ring c hc2
        · rw [List.mem_singleton.mp hc2]
          exact ringInv_of_ordered List.Pairwise.nil
      · show st.totalCapacity + newSize =
          ((st.chunks ++ [newChunk]).map Chunk.capacityInBytes).sum
        rw [List.map_append, List.sum_append, ← hI.total]
        rfl
      · intro e he
        obtain ⟨c, hcm, hcres, hrest⟩ := hI.wfEntries e he
        exact ⟨c, List.mem_append_left _ hcm, hcres, hrest⟩
      · intro c hc a ha
        rcases List.mem_append.mp hc with hc2 | hc2
        · exact hI.allocFresh c hc2 a ha
        · rw [List.mem_singleton.mp hc2] at ha
          cases ha
      · intro c hc
        rcases List.mem_append.mp hc with hc2 | hc2
        · exact Nat.lt_succ_of_lt (hI.resFresh c hc2)
        · rw [List.mem_singleton.mp hc2]
          exact Nat.lt_succ_self _
      · refine ⟨newChunk, ?_, ?_⟩
        · show (st.chunks ++ [newChunk])[st.chunks.length]? = some newChunk
          exact List.getElem?_concat_length _ _
        · unfold FindOffsetForAllocation
          have hcap2 : ¬ newChunk.capacityInBytes < s := by
            show ¬ newSize < s
            omega
          rw [if_neg hcap2]
          rfl
      · show ((st.chunks ++ [newChunk]).map fun c => c.allocations.length).sum =
          totalAllocCount st
        rw [List.map_append, List.sum_append]
        simp [totalAllocCount]
    · rw [if_neg hck] at h
      cases h

lemma push_inv (cfg : Config) (st : HeapState) (i off s ev : Nat) (k : Bool)
    (hI : HeapInv cfg st) (ha : 0 < cfg.alignment) (hs : 0 < s) (c : Chunk)
    (hc : st.chunks[i]? = some c)
    (hoff : FindOffsetForAllocation cfg.alignment c s = some off) :
    HeapInv cfg { pushAlloc st i ⟨st.nextAllocId, s, off, ev, k⟩ with
      nextAllocId := st.nextAllocId + 1 } ∧
    ({ pushAlloc st i ⟨st.nextAllocId, s, off, ev, k⟩ with
      nextAllocId := st.nextAllocId + 1 } : HeapState).chunks[i]? =
      some { c with allocations := c.allocations ++ [⟨st.nextAllocId, s, off, ev, k⟩] } ∧
    totalAllocCount { pushAlloc st i ⟨st.nextAllocId, s, off, ev, k⟩ with
      nextAllocId := st.nextAllocId + 1 } = totalAllocCount st + 1 := by
  have hcm : c ∈ st.chunks := List.getElem?_mem hc
  have hsound := findOffset_sound ha hs (hI.geom c hcm) (hI.ring c hcm) hoff
  set newA : Allocation := ⟨st.nextAllocId, s, off, ev, k⟩ with hnA
  set F : Chunk → Chunk := fun c => { c with allocations := c.allocations ++ [newA] } with hF
  have hchunks2 : ({ pushAlloc st i newA with
      nextAllocId := st.nextAllocId + 1 } : HeapState).chunks = modifyNth F i st.chunks := rfl
  have hmapcap : (modifyNth F i st.chunks).map Chunk.capacityInBytes =
      st.chunks.map Chunk.capacityInBytes :=
    map_modifyNth Chunk.capacityInBytes F (fun x => rfl) i st.chunks
  have hmem : ∀ {x : Chunk}, x ∈ modifyNth F i st.chunks → x ∈ st.chunks ∨ x = F c := by
    intro x hx
    rcases mem_modifyNth hx with hx2 | ⟨y, hy, rfl⟩
    · exact Or.inl hx2
    · right
      rw [hc] at hy
      injection hy with hy
      rw [hy]
  refine ⟨⟨?_, ?_, ?_, ?_, ?_, hI.lruBound, ?_, hI.entryAllocsNodup, ?_,
      hI.entryFresh, ?_, hI.cacheFresh⟩, ?_, ?_⟩
  · rw [hchunks2, hmapcap]; exact hI.sorted
  · intro x hx
    rcases hmem hx with hx2 | rfl
    · exact hI.capEq x hx2
    · exact hI.capEq c hcm
  · intro x hx
    rcases hmem hx with hx2 | rfl
    · exact hI.geom x hx2
    · intro a ha2
      rcases List.mem_append.mp ha2 with ha3 | ha3
      · exact hI.geom c hcm a ha3
      · rw [List.mem_singleton.mp ha3]
        refine ⟨hs, ?_, hsound.1⟩
        simp only [allocEnd]
        have := hsound.2.1
        omega
  · intro x hx
    rcases hmem hx with hx2 | rfl
    · exact hI.ring x hx2
    · exact hsound.2.2 st.nextAllocId ev k
  · show st.totalCapacity = ((modifyNth F i st.chunks).map Chunk.capacityInBytes).sum
    rw [hmapcap]; exact hI.total
  · intro e he
    obtain ⟨c2, hc2m, hcres, a, hma, haid, hlocked⟩ := hI.wfEntries e he
    rcases mem_modifyNth_of_mem (f := F) (i := i) hc2m with h2 | h2
    · exact ⟨c2, h2, hcres, a, hma, haid, hlocked⟩
    · exact ⟨F c2, h2, hcres, a, List.mem_append_left _ hma, haid, hlocked⟩
  · intro x hx a ha2
    rcases hmem hx with hx2 | rfl
    · exact Nat.lt_succ_of_lt (hI.allocFresh x hx2 a ha2)
    · rcases List.mem_append.mp ha2 with ha3 | ha3
      · exact Nat.lt_succ_of_lt (hI.allocFresh c hcm a ha3)
      · rw [List.mem_singleton.mp ha3]
        exact Nat.lt_succ_self _
  · intro x hx
    rcases hmem hx with hx2 | rfl
    · exact hI.resFresh x hx2
    · exact hI.resFresh c hcm
  · rw [hchunks2]
    exact getElem?_modifyNth_self hc
  · show ((modifyNth F i st.chunks).map fun c => c.allocations.length).sum =
      totalAllocCount st + 1
    have hlen : i < st.chunks.length := by
      rcases List.getElem?_eq_some.mp hc with ⟨hlt, _⟩
      exact hlt
    exact sum_map_modifyNth _ _ 1 (fun x => by simp) i st.chunks hlen

/-- The heap invariant evaluated on the state an operation leaves behind,
whether it returned or threw; an undefined-behaviour path carries no
state. -/
def OutcomeInv (cfg : Config) : OpOutcome → Prop
  | .ok st _ _ => HeapInv cfg st
  | .err st => HeapInv cfg st
  | .ub => True

lemma entryAlloc_lt (cfg : Config) (st : HeapState) (hI : HeapInv cfg st) :
    ∀ e ∈ st.reusableCommandLists, e.allocId < st.nextAllocId := by
  intro e he
  obtain ⟨c, hc, _, a, hma, haid, _⟩ := hI.wfEntries e he
  rw [← haid]
  exact hI.allocFresh c hc a hma

lemma beginUpload_inv (cfg : Config) (env : Env) (st : HeapState) (d o s : Nat)
    (ha : 0 < cfg.alignment) (hI : HeapInv cfg st) (hs : 0 < s) :
    OutcomeInv cfg (beginUploadToGpu cfg env st d o s) := by
  unfold beginUploadToGpu
  dsimp only
  have hI1 : HeapInv cfg (reclaimAllocations env.signaled st) := reclaim_inv _ _ _ hI
  cases hres : reserve cfg env (reclaimAllocations env.signaled st) s with
  | err st2 =>
    show HeapInv cfg st2
    rw [reserve_err_eq _ _ _ _ _ hres]
    exact hI1
  | ok st2 i off =>
    obtain ⟨hI2, ⟨c, hc, hfo⟩, _, _, hnA, _, _⟩ :=
      reserve_ok_spec _ _ _ _ _ _ _ hI1 hs hres
    by_cases hm : env.mapOk
    · by_cases hcp : env.copyOk
      · simp only [hm, hcp, Bool.not_true, Bool.false_eq_true, if_false]
        show HeapInv cfg _
        exact (push_inv cfg st2 i off s env.ev false hI2 ha hs c hc hfo).1
      · simp only [hm, hcp, Bool.not_true, Bool.not_false, if_true, if_false,
          Bool.false_eq_true]
        exact hI2
    · simp only [hm, Bool.not_false, if_true]
      exact hI2

lemma beginReusable_inv (cfg : Config) (env : Env) (st : HeapState) (d o s : Nat)
    (ha : 0 < cfg.alignment) (hI : HeapInv cfg st) (hs : 0 < s) :
    OutcomeInv cfg (beginReusableUploadToGpu cfg env st d o s) := by
  unfold beginReusableUploadToGpu
  dsimp only
  cases hev : evictStep cfg st ⟨d, o, s⟩ with
  | none => trivial
  | some stE =>
    dsimp only
    obtain ⟨hIE, hEa, hEe, hEr, hEc, hmissLen, hhitEq, hElook⟩ :=
      evictStep_spec cfg _ st stE hI hev
    have hIR : HeapInv cfg (reclaimAllocations env.signaled stE) :=
      reclaim_inv _ _ _ hIE
    cases hkey : lookupCache st.reusableCommandListsCache ⟨d, o, s⟩ with
    | none =>
      dsimp only
      cases hres : reserve cfg env (reclaimAllocations env.signaled stE) s with
      | err st2 =>
        show HeapInv cfg st2
        rw [reserve_err_eq _ _ _ _ _ hres]
        exact hIR
      | ok st2 i off =>
        obtain ⟨hI2, ⟨c, hc, hfo⟩, hlists2, hcache2, hnA2, hnE2, _⟩ :=
          reserve_ok_spec _ _ _ _ _ _ _ hIR hs hres
        by_cases hal : env.allocatorOk
        case neg => simp only [hal, Bool.not_false, if_true]; exact hI2
        by_cases hli : env.listOk
        case neg =>
          simp only [hal, hli, Bool.not_true, Bool.not_false, Bool.false_eq_true,
            if_false, if_true]
          exact hI2
        by_cases hm : env.mapOk
        case neg =>
          simp only [hal, hli, hm, Bool.not_true, Bool.not_false, Bool.false_eq_true,
            if_false, if_true]
          exact hI2
        simp only [hal, hli, hm, Bool.not_true, Bool.false_eq_true, if_false]
        obtain ⟨hI3, hc3, hcount3⟩ :=
          push_inv cfg st2 i off s env.ev true hI2 ha hs c hc hfo
        set st3 : HeapState := { pushAlloc st2 i ⟨st2.nextAllocId, s, off, env.ev, true⟩ with
          nextAllocId := st2.nextAllocId + 1 } with hst3
        rw [List.get?_eq_getElem?, hc3]
        set c3 : Chunk :=
          { c with allocations := c.allocations ++ [⟨st2.nextAllocId, s, off, env.ev, true⟩] }
          with hc3def
        by_cases hex : env.execOk
        case neg =>
          simp only [hex, Bool.not_false, if_true]
          exact hI3
        simp only [hex, Bool.not_true, Bool.false_eq_true, if_false]
        show HeapInv cfg _
        have hlenlt : st3.reusableCommandLists.length < cfg.maxReusableCommandLists := by
          have h1 : st3.reusableCommandLists = st2.reusableCommandLists := rfl
          rw [h1, hlists2]
          show (reclaimAllocations env.signaled stE).reusableCommandLists.length < _
          exact hmissLen hkey
        have hEntLt : ∀ e ∈ st3.reusableCommandLists, e.allocId < st2.nextAllocId := by
          intro e he
          exact entryAlloc_lt cfg st2 hI2 e he
    -- the appended state
        refine ⟨hI3.sorted, hI3.capEq, hI3.geom, hI3.ring, hI3.total, ?_, ?_, ?_, ?_, ?_,
          hI3.resFresh, ?_⟩
        · dsimp only
          rw [List.length_append]
          have h1 : (pushAlloc st2 i
              ⟨st2.nextAllocId, s, off, env.ev, true⟩).reusableCommandLists.length =
              st3.reusableCommandLists.length := rfl
          simp only [List.length_singleton, h1]
          omega
        · intro e he
          rcases List.mem_append.mp he with he2 | he2
          · obtain ⟨c2, hc2m, hcres, a, hma, haid, hlocked⟩ := hI3.wfEntries e he2
            exact ⟨c2, hc2m, hcres, a, hma, haid, hlocked⟩
          · rw [List.mem_singleton.mp he2]
            refine ⟨c3, List.getElem?_mem hc3, rfl, ⟨st2.nextAllocId, s, off, env.ev, true⟩,
              ?_, rfl, rfl⟩
            show _ ∈ c.allocations ++ _
            exact List.mem_append_right _ (List.mem_singleton_self _)
        · show ((st3.reusableCommandLists ++ [_]).map ReusableEntry.allocId).Nodup
          rw [List.map_append, List.nodup_append]
          refine ⟨hI3.entryAllocsNodup, List.nodup_singleton _, ?_⟩
          intro x hx
          obtain ⟨e, he, rfl⟩ := List.mem_map.mp hx
          have := hEntLt e he
          simp only [List.map_cons, List.map_nil, List.mem_singleton]
          intro hcontra
          rw [hcontra] at this
          exact absurd this (by omega)
        · intro x hx a ha2
          exact hI3.allocFresh x hx a ha2
        · intro e he
          rcases List.mem_append.mp he with he2 | he2
          · have h4 : e.entryId < st3.nextEntryId := hI3.entryFresh e he2
            show e.entryId < st3.nextEntryId + 1
            omega
          · rw [List.mem_singleton.mp he2]
            show st3.nextEntryId < st3.nextEntryId + 1
            omega
        · intro kv hkv
          rcases List.mem_append.mp hkv with hkv2 | hkv2
          · have h5 : kv.2 < st3.nextEntryId := hI3.cacheFresh kv hkv2
            show kv.2 < st3.nextEntryId + 1
            omega
          · rw [List.mem_singleton.mp hkv2]
            show st3.nextEntryId < st3.nextEntryId + 1
            omega
    | some eid =>
      dsimp only
      cases hfind : (reclaimAllocations env.signaled stE).reusableCommandLists.find?
          (fun e => e.entryId == eid) with
      | none => trivial
      | some e =>
        dsimp only
        cases hfa : findAllocation (reclaimAllocations env.signaled stE) e.allocId with
        | none =>
          cases hfc : findChunkByResource (reclaimAllocations env.signaled stE)
              e.chunkResourceId with
          | none => trivial
          | some c => trivial
        | some a =>
          cases hfc : findChunkByResource (reclaimAllocations env.signaled stE)
              e.chunkResourceId with
          | none => trivial
          | some c =>
            by_cases hm : env.mapOk
            case neg => simp only [hm, Bool.not_false, if_true]; exact hIR
            by_cases hex : env.execOk
            case neg =>
              simp only [hm, hex, Bool.not_true, Bool.not_false, Bool.false_eq_true,
                if_false, if_true]
              exact hIR
            simp only [hm, hex, Bool.not_true, Bool.false_eq_true, if_false]
            show HeapInv cfg _
            exact setDoneEvent_inv cfg _ _ _ hIR

lemma trim_inv (cfg : Config) (sig : Nat → Bool) (st : HeapState)
    (hI : HeapInv cfg st) : HeapInv cfg (trim sig st) := by
  have hI1 : HeapInv cfg (reclaimAllocations sig st) := reclaim_inv _ _ _ hI
  unfold trim
  dsimp only
  set st1 := reclaimAllocations sig st with hst1
  set chunks2 := st1.chunks.filter (fun c => !c.allocations.isEmpty) with hchunks2
  have hsub : List.Sublist chunks2 st1.chunks := List.filter_sublist _
  refine ⟨?_, ?_, ?_, ?_, rfl, hI1.lruBound, ?_, hI1.entryAllocsNodup, ?_,
    hI1.entryFresh, ?_, hI1.cacheFresh⟩
  · exact hI1.sorted.sublist (hsub.map _)
  · intro c hc
    exact hI1.capEq c (hsub.mem hc)
  · intro c hc
    exact hI1.geom c (hsub.mem hc)
  · intro c hc
    exact hI1.ring c (hsub.mem hc)
  · intro e he
    obtain ⟨c, hcm, hcres, a, hma, haid, hlocked⟩ := hI1.wfEntries e he
    refine ⟨c, ?_, hcres, a, hma, haid, hlocked⟩
    refine List.mem_filter.mpr ⟨hcm, ?_⟩
    cases hl : c.allocations with
    | nil => rw [hl] at hma; cases hma
    | cons x xs => simp [hl]
  · intro c hc
    exact hI1.allocFresh c (hsub.mem hc)
  · intro c hc
    exact hI1.resFresh c (hsub.mem hc)

lemma applyOp_inv (cfg : Config) (op : PublicOp) (st st2 : HeapState)
    (ha : 0 < cfg.alignment) (hI : HeapInv cfg st) (hv : opValid op)
    (h : applyOp cfg st op = some st2) : HeapInv cfg st2 := by
  cases op with
  | upload env d o s =>
    unfold applyOp at h
    dsimp only at h
    have hout := beginUpload_inv cfg env st d o s ha hI hv
    cases hcall : beginUploadToGpu cfg env st d o s with
    | ok st3 r x =>
      rw [hcall] at h hout
      injection h with h
      subst h
      exact hout
    | err st3 =>
      rw [hcall] at h hout
      injection h with h
      subst h
      exact hout
    | ub => rw [hcall] at h; cases h
  | reusableUpload env d o s =>
    unfold applyOp at h
    dsimp only at h
    have hout := beginReusable_inv cfg env st d o s ha hI hv
    cases hcall : beginReusableUploadToGpu cfg env st d o s with
    | ok st3 r x =>
      rw [hcall] at h hout
      injection h with h
      subst h
      exact hout
    | err st3 =>
      rw [hcall] at h hout
      injection h with h
      subst h
      exact hout
    | ub => rw [hcall] at h; cases h
  | trimOp sig =>
    unfold applyOp at h
    dsimp only at h
    injection h with h
    subst h
    exact trim_inv cfg sig st hI

lemma initState_inv (cfg : Config) : HeapInv cfg initState := by
  refine ⟨?_, ?_, ?_, ?_, rfl, Nat.zero_le _, ?_, ?_, ?_, ?_, ?_, ?_⟩ <;>
    first
      | exact List.Pairwise.nil
      | exact List.Nodup.nil
      | intro x hx <;> cases hx
      | (intro x hx; cases hx)

lemma applyOps_inv (cfg : Config) (ha : 0 < cfg.alignment) :
    ∀ (ops : List PublicOp) (st st2 : HeapState), HeapInv cfg st →
      (∀ op ∈ ops, opValid op) → applyOps cfg st ops = some st2 → HeapInv cfg st2 := by
  intro ops
  induction ops with
  | nil =>
    intro st st2 hI _ h
    injection h with h
    subst h
    exact hI
  | cons op rest ih =>
    intro st st2 hI hv h
    unfold applyOps at h
    cases hstep : applyOp cfg st op with
    | none => rw [hstep] at h; cases h
    | some st1 =>
      rw [hstep] at h
      have hI1 := applyOp_inv cfg op st st1 ha hI (hv op (List.mem_cons_self _ _)) hstep
      exact ih st1 st2 hI1 (fun op2 hop2 => hv op2 (List.mem_cons_of_mem _ hop2)) h

lemma heapInv_five (cfg : Config) (st : HeapState) (hI : HeapInv cfg st) :
    FiveInvariants cfg st := by
  refine ⟨hI.sorted, hI.capEq, ?_, ?_, hI.total⟩
  · intro c hc a hma
    have := hI.geom c hc a hma
    exact ⟨this.2.1, this.2.2⟩
  · intro c hc
    exact ringInv_disjoint (hI.ring c hc)

/-- An environment in which every device and executor call succeeds, no GPU
event has signalled yet, and the executor's current completion event is
`ev`. -/
def okEnv (ev : Nat) : Env :=
  ⟨true, true, true, true, true, true, fun _ => false, ev⟩

instance (u v : Allocation) : Decidable (AllocDisjoint u v) := by
  unfold AllocDisjoint allocEnd
  infer_instance

instance (op : PublicOp) : Decidable (opValid op) := by
  cases op with
  | upload _ _ _ s => exact inferInstanceAs (Decidable (0 < s))
  | reusableUpload _ _ _ s => exact inferInstanceAs (Decidable (0 < s))
  | trimOp _ => exact inferInstanceAs (Decidable True)

/-- Modelled from the spec: `BucketizedBufferAllocator::ComputeRequiredSize`
(declared in `BucketizedBufferAllocator.h`; its body is not part of the
excerpt).  Sizes up to `2^16` (the floor bucket, `c_minResourceSizeExponent
= 16`) round to `2^16`; larger sizes round to the next power of two,
computed here with `Nat.clog 2`, the ceiling base-2 logarithm. -/
def ComputeRequiredSize (size : Nat) : Nat :=
  if size ≤ 2 ^ 16 then 2 ^ 16 else 2 ^ Nat.clog 2 size

/-- Modelled from the spec: `BucketizedBufferAllocator::GetBucketIndexFromSize`
(`max(0, ceil(log2(size)) - 16)`, with the clamp at zero expressed by
truncated subtraction). -/
def GetBucketIndexFromSize (size : Nat) : Nat :=
  Nat.clog 2 size - 16

/-- Modelled from the spec: `BucketizedBufferAllocator::GetBucketSizeFromIndex`
(`bucketSize(index) = 1 <<< (16 + index)`). -/
def GetBucketSizeFromIndex (i : Nat) : Nat :=
  2 ^ (16 + i)

/-- The allocation-ID bookkeeping of the bucketized buffer allocator:
`current_allocation_id_` (the largest ID ever minted, starting at 0 so the
first ID is 1), `free_allocation_ids_` (the reuse pool, a vector used as a
stack), and the set of IDs of live allocations (the keys of
`allocations_by_id_`). -/
structure IdState where
  current_allocation_id : Nat
  free_allocation_ids : List Nat
  liveIds : List Nat
deriving DecidableEq

/-- Modelled from the spec: `BucketizedBufferAllocator::TryReserveAllocationID`.
Pop an ID from the back of `free_allocation_ids` if the pool is non-empty
(release appends to the vector "without reordering", so popping takes the
most recently freed ID); otherwise mint `current_allocation_id + 1`, failing
once the 32-bit ID space is exhausted. -/
def TryReserveAllocationID (st : IdState) : Option (Nat × IdState) :=
  match st.free_allocation_ids.getLast? with
  | some id => some (id, { st with free_allocation_ids := st.free_allocation_ids.dropLast })
  | none =>
    if st.current_allocation_id = 2 ^ 32 - 1 then
      none
    else
      some (st.current_allocation_id + 1,
        { st with current_allocation_id := st.current_allocation_id + 1 })

/-- Modelled from the spec: `BucketizedBufferAllocator::ReleaseAllocationID`
returns the ID to the pool without reordering (vector `push_back`). -/
def ReleaseAllocationID (st : IdState) (id : Nat) : IdState :=
  { st with free_allocation_ids := st.free_allocation_ids ++ [id] }

/-- ID-level view of `Alloc`: reserve an ID and record it live. -/
def idAlloc (st : IdState) : Option (Nat × IdState) :=
  match TryReserveAllocationID st with
  | some (id, st2) => some (id, { st2 with liveIds := st2.liveIds ++ [id] })
  | none => none

/-- ID-level view of `Free`: drop the ID from the live set and release it.
Freeing an ID that is not live is a contract violation (`none`). -/
def idFree (st : IdState) (id : Nat) : Option IdState :=
  if id ∈ st.liveIds then
    some { st with
             liveIds := st.liveIds.erase id,
             free_allocation_ids := st.free_allocation_ids ++ [id] }
  else
    none

/-- One `Alloc` or `Free` call, at the allocation-ID level. -/
inductive IdOp where
  | alloc
  | free (id : Nat)
deriving DecidableEq

/-- Run a sequence of ID operations from a state, collecting the IDs the
`Alloc` calls hand out, in order. -/
def applyIdOps (st : IdState) : List IdOp → Option (IdState × List Nat)
  | [] => some (st, [])
  | .alloc :: ops =>
    match idAlloc st with
    | some (id, st2) =>
      match applyIdOps st2 ops with
      | some (st3, ids) => some (st3, id :: ids)
      | none => none
    | none => none
  | .free id :: ops =>
    match idFree st id with
    | some st2 => applyIdOps st2 ops
    | none => none

/-- A freshly constructed bucket allocator: no IDs issued, empty pool. -/
def initIdState : IdState :=
  ⟨0, [], []⟩

/-- The ID-bookkeeping invariant: live and free IDs are duplicate-free and
disjoint, all of them are non-zero and bounded by `current_allocation_id`. -/
def IdInv (st : IdState) : Prop :=
  st.liveIds.Nodup ∧ st.free_allocation_ids.Nodup ∧
  (∀ i ∈ st.liveIds, i ∉ st.free_allocation_ids) ∧
  (∀ i ∈ st.liveIds, 0 < i ∧ i ≤ st.current_allocation_id) ∧
  (∀ i ∈ st.free_allocation_ids, 0 < i ∧ i ≤ st.current_allocation_id)

lemma idAlloc_spec (st : IdState) (rid : Nat) (st2 : IdState) (hI : IdInv st)
    (h : idAlloc st = some (rid, st2)) :
    IdInv st2 ∧ 0 < rid ∧ rid ∈ st2.liveIds ∧
    (st.free_allocation_ids ≠ [] →
      rid ∈ st.free_allocation_ids ∧
      st.free_allocation_ids.getLast? = some rid ∧
      st2.current_allocation_id = st.current_allocation_id) ∧
    (st.free_allocation_ids = [] → rid = st.current_allocation_id + 1) := by
  obtain ⟨hnl, hnf, hdisj, hbl, hbf⟩ := hI
  unfold idAlloc TryReserveAllocationID at h
  cases hlast : st.free_allocation_ids.getLast? with
  | some id0 =>
    rw [hlast] at h
    injection h with h
    obtain ⟨h3, h4⟩ := Prod.mk.inj h
    have h3s : rid = id0 := h3.symm
    subst h3s
    subst h4
    have hfne : st.free_allocation_ids ≠ [] := by
      intro hc
      rw [hc] at hlast
      cases hlast
    have hgl : st.free_allocation_ids.getLast hfne = rid := by
      have h5 := List.getLast?_eq_getLast st.free_allocation_ids hfne
      rw [hlast] at h5
      injection h5 with h5
      exact h5.symm
    have hmem : rid ∈ st.free_allocation_ids := hgl ▸ List.getLast_mem hfne
    have hsplit : st.free_allocation_ids.dropLast ++ [rid] = st.free_allocation_ids := by
      rw [← hgl]
      exact List.dropLast_append_getLast hfne
    have hnotdrop : rid ∉ st.free_allocation_ids.dropLast := by
      intro hc
      rw [← hsplit, List.nodup_append] at hnf
      exact hnf.2.2 hc (List.mem_singleton_self rid)
    refine ⟨⟨?_, ?_, ?_, ?_, ?_⟩, (hbf rid hmem).1, by simp, ?_, ?_⟩
    · dsimp only
      rw [List.nodup_append]
      refine ⟨hnl, List.nodup_singleton _, ?_⟩
      intro x hx
      simp only [List.mem_singleton]
      intro hc
      rw [hc] at hx
      exact absurd hmem (hdisj rid hx)
    · exact hnf.sublist (List.dropLast_sublist _)
    · intro i hi
      rcases List.mem_append.mp hi with hi2 | hi2
      · intro hc
        exact absurd (List.dropLast_sublist _ |>.mem hc) (hdisj i hi2)
      · rw [List.mem_singleton.mp hi2]
        exact hnotdrop
    · intro i hi
      rcases List.mem_append.mp hi with hi2 | hi2
      · exact hbl i hi2
      · rw [List.mem_singleton.mp hi2]
        exact hbf rid hmem
    · intro i hi
      exact hbf i (List.dropLast_sublist _ |>.mem hi)
    · intro _
      exact ⟨hmem, rfl, rfl⟩
    · intro hc
      rw [hc] at hlast
      cases hlast
  | none =>
    rw [hlast] at h
    by_cases hcap : st.current_allocation_id = 2 ^ 32 - 1
    · rw [if_pos hcap] at h
      cases h
    · rw [if_neg hcap] at h
      injection h with h
      obtain ⟨h3, h4⟩ := Prod.mk.inj h
      subst h3
      subst h4
      have hfree : st.free_allocation_ids = [] := List.getLast?_eq_none_iff.mp hlast
      refine ⟨⟨?_, ?_, ?_, ?_, ?_⟩, by omega, by simp, ?_, fun _ => rfl⟩
      · dsimp only
        rw [List.nodup_append]
        refine ⟨hnl, List.nodup_singleton _, ?_⟩
        intro x hx
        simp only [List.mem_singleton]
        intro hc
        have := (hbl x hx).2
        omega
      · exact hnf
      · intro i hi
        rcases List.mem_append.mp hi with hi2 | hi2
        · exact hdisj i hi2
        · rw [List.mem_singleton.mp hi2]
          rw [hfree]
          exact List.not_mem_nil _
      · intro i hi
        rcases List.mem_append.mp hi with hi2 | hi2
        · have := hbl i hi2
          constructor
          · exact this.1
          · dsimp only
            omega
        · rw [List.mem_singleton.mp hi2]
          constructor
          · omega
          · dsimp only
            omega
      · intro i hi
        rw [hfree] at hi
        cases hi
      · intro hc
        exact absurd hfree hc

lemma idFree_inv (st : IdState) (rid : Nat) (st2 : IdState) (hI : IdInv st)
    (h : idFree st rid = some st2) : IdInv st2 := by
  obtain ⟨hnl, hnf, hdisj, hbl, hbf⟩ := hI
  unfold idFree at h
  by_cases hmem : rid ∈ st.liveIds
  · rw [if_pos hmem] at h
    injection h with h
    subst h
    refine ⟨?_, ?_, ?_, ?_, ?_⟩
    · exact hnl.erase _
    · dsimp only
      rw [List.nodup_append]
      refine ⟨hnf, List.nodup_singleton _, ?_⟩
      intro x hx hx2
      rw [List.mem_singleton.mp hx2] at hx
      exact hdisj rid hmem hx
    · intro i hi
      have hi2 : i ∈ st.liveIds := List.mem_of_mem_erase hi
      intro hc
      rcases List.mem_append.mp hc with hc2 | hc2
      · exact hdisj i hi2 hc2
      · rw [List.mem_singleton.mp hc2] at hi
        exact (hnl.mem_erase_iff.mp hi).1 rfl
    · intro i hi
      exact hbl i (List.mem_of_mem_erase hi)
    · intro i hi
      rcases List.mem_append.mp hi with hi2 | hi2
      · exact hbf i hi2
      · rw [List.mem_singleton.mp hi2]
        exact hbl rid hmem
  · rw [if_neg hmem] at h
    cases h

lemma applyIdOps_inv :
    ∀ (ops : List IdOp) (st st2 : IdState) (ids : List Nat), IdInv st →
      applyIdOps st ops = some (st2, ids) →
      IdInv st2 ∧ ∀ i ∈ ids, 0 < i := by
  intro ops
  induction ops with
  | nil =>
    intro st st2 ids hI h
    unfold applyIdOps at h
    injection h with h
    obtain ⟨h1, h2⟩ := Prod.mk.inj h
    subst h1
    subst h2
    exact ⟨hI, by intro i hi; cases hi⟩
  | cons op rest ih =>
    intro st st2 ids hI h
    cases op with
    | alloc =>
      unfold applyIdOps at h
      cases halloc : idAlloc st with
      | none => rw [halloc] at h; cases h
      | some p =>
        obtain ⟨pid, pst⟩ := p
        rw [halloc] at h
        dsimp only at h
        obtain ⟨hI1, hpos, _, _, _⟩ := idAlloc_spec st pid pst hI halloc
        cases hrec : applyIdOps pst rest with
        | none => rw [hrec] at h; cases h
        | some q =>
          obtain ⟨qst, qids⟩ := q
          rw [hrec] at h
          injection h with h
          obtain ⟨h1, h2⟩ := Prod.mk.inj h
          subst h1
          subst h2
          obtain ⟨hI2, hids⟩ := ih pst qst qids hI1 hrec
          refine ⟨hI2, ?_⟩
          intro i hi
          rcases List.mem_cons.mp hi with rfl | hi2
          · exact hpos
          · exact hids i hi2
    | free rid =>
      unfold applyIdOps at h
      cases hfree : idFree st rid with
      | none => rw [hfree] at h; cases h
      | some stf =>
        rw [hfree] at h
        exact ih stf st2 ids (idFree_inv st rid stf hI hfree) h

lemma initIdState_inv : IdInv initIdState := by
  refine ⟨List.nodup_nil, List.nodup_nil, ?_, ?_, ?_⟩ <;>
    (intro i hi; cases hi)

lemma findOffset_eq_spec (alignment : Nat) (chunk : Chunk) (size : Nat) :
    FindOffsetForAllocation alignment chunk size = specFindOffset alignment chunk size :=
  rfl

lemma findChunkOffset_none_iff {a s : Nat} : ∀ {l : List Chunk},
    findChunkOffset a l s = none ↔ ∀ c ∈ l, FindOffsetForAllocation a c s = none := by
  intro l
  induction l with
  | nil => simp [findChunkOffset]
  | cons c cs ih =>
    unfold findChunkOffset
    cases hf : FindOffsetForAllocation a c s with
    | some off => simp [hf]
    | none =>
      simp only [Option.map_eq_none', ih]
      constructor
      · intro h2 c2 hc2
        rcases List.mem_cons.mp hc2 with rfl | hc3
        · exact hf
        · exact h2 c2 hc3
      · intro h2 c2 hc2
        exact h2 c2 (List.mem_cons_of_mem _ hc2)

lemma findChunkOffset_of_first {a s : Nat} : ∀ {l : List Chunk} {i off : Nat} {c : Chunk},
    l[i]? = some c → FindOffsetForAllocation a c s = some off →
    (∀ j cj, j < i → l[j]? = some cj → FindOffsetForAllocation a cj s = none) →
    findChunkOffset a l s = some (i, off) := by
  intro l
  induction l with
  | nil => intro i off c hc; simp at hc
  | cons c0 cs ih =>
    intro i off c hc hfo hmin
    cases i with
    | zero =>
      simp only [List.getElem?_cons_zero] at hc
      injection hc with hc
      subst hc
      unfold findChunkOffset
      rw [hfo]
    | succ n =>
      have h0 : FindOffsetForAllocation a c0 s = none :=
        hmin 0 c0 (Nat.succ_pos _) (by simp)
      unfold findChunkOffset
      rw [h0]
      have hrec : findChunkOffset a cs s = some (n, off) := by
        refine ih (by simpa using hc) hfo ?_
        intro j cj hj hcj
        exact hmin (j + 1) cj (by omega) (by simpa using hcj)
      rw [hrec]
      rfl

lemma find?_append_of_none {α} (p : α → Bool) (l1 l2 : List α)
    (h : l1.find? p = none) : (l1 ++ l2).find? p = l2.find? p := by
  induction l1 with
  | nil => rfl
  | cons x xs ih =>
    cases hp : p x with
    | true =>
      rw [List.find?_cons_of_pos _ hp] at h
      cases h
    | false =>
      rw [List.find?_cons_of_neg _ (by simp [hp])] at h
      rw [List.cons_append, List.find?_cons_of_neg _ (by simp [hp])]
      exact ih h

lemma findSome?_option_map {α β γ} (g : α → Option β) (f : β → γ) :
    ∀ l : List α, l.findSome? (fun x => (g x).map f) = (l.findSome? g).map f := by
  intro l
  induction l with
  | nil => rfl
  | cons x xs ih =>
    rw [List.findSome?_cons, List.findSome?_cons]
    cases hg : g x with
    | some b => simp [hg]
    | none => simp [hg, ih]

lemma findAllocation_some_allocId (st : HeapState) (aid : Nat) (a : Allocation)
    (h : findAllocation st aid = some a) : a.allocId = aid := by
  unfold findAllocation at h
  obtain ⟨c, _, hfc⟩ := List.exists_of_findSome?_eq_some h
  have := List.find?_some hfc
  simpa using this

lemma findSome?_push_list (aid : Nat) (a : Allocation) (ha : a.allocId = aid) :
    ∀ (l : List Chunk) (i : Nat) (c : Chunk), l[i]? = some c →
      (∀ c2 ∈ l, ∀ b ∈ c2.allocations, b.allocId ≠ aid) →
      (modifyNth (fun c => { c with allocations := c.allocations ++ [a] }) i l).findSome?
        (fun c => c.allocations.find? (fun b => b.allocId == aid)) = some a := by
  intro l
  induction l with
  | nil => intro i c hc; simp at hc
  | cons c0 cs ih =>
    intro i c hc hfresh
    have hnone : c0.allocations.find? (fun b => b.allocId == aid) = none := by
      rw [List.find?_eq_none]
      intro b hb
      have := hfresh c0 (List.mem_cons_self _ _) b hb
      simpa using this
    cases i with
    | zero =>
      show List.findSome? _ ({ c0 with allocations := c0.allocations ++ [a] } :: cs) = some a
      rw [List.findSome?_cons]
      have hfa : (c0.allocations ++ [a]).find? (fun b => b.allocId == aid) = some a := by
        rw [find?_append_of_none _ _ _ hnone]
        exact List.find?_cons_of_pos _ (by simp [ha])
      rw [hfa]
    | succ n =>
      show List.findSome? _ (c0 :: modifyNth _ n cs) = some a
      rw [List.findSome?_cons]
      simp only [hnone]
      exact ih n c (by simpa using hc)
        (fun c2 hc2 => hfresh c2 (List.mem_cons_of_mem _ hc2))

lemma findAllocation_after_push (st : HeapState) (i : Nat) (c : Chunk) (a : Allocation)
    (hc : st.chunks[i]? = some c)
    (hfresh : ∀ c2 ∈ st.chunks, ∀ b ∈ c2.allocations, b.allocId ≠ a.allocId) :
    findAllocation (pushAlloc st i a) a.allocId = some a :=
  findSome?_push_list a.allocId a rfl st.chunks i c hc hfresh

lemma findAllocation_setDoneEvent_self (st : HeapState) (aid ev : Nat) (a : Allocation)
    (h : findAllocation st aid = some a) :
    findAllocation (setDoneEvent aid ev st) aid = some { a with doneEvent := ev } := by
  have haid : a.allocId = aid := findAllocation_some_allocId st aid a h
  unfold findAllocation at h ⊢
  unfold setDoneEvent
  dsimp only
  rw [List.findSome?_map]
  have hcong : ((fun c : Chunk => c.allocations.find? fun b => b.allocId == aid) ∘
      (fun c : Chunk => { c with allocations := c.allocations.map fun b =>
        if b.allocId = aid then { b with doneEvent := ev } else b })) =
      (fun c : Chunk => (c.allocations.find? fun b => b.allocId == aid).map
        (fun b => if b.allocId = aid then { b with doneEvent := ev } else b)) := by
    funext c
    show (c.allocations.map _).find? _ = _
    rw [List.find?_map]
    have hfun : ((fun b : Allocation => b.allocId == aid) ∘ (fun b =>
        if b.allocId = aid then { b with doneEvent := ev } else b)) =
        (fun b : Allocation => b.allocId == aid) := by
      funext b
      by_cases hb : b.allocId = aid
      · simp [Function.comp, hb]
      · simp [Function.comp, hb]
    rw [hfun]
  rw [hcong, findSome?_option_map, h]
  simp [haid]

lemma find?_entries_snoc (l : List ReusableEntry) (e : ReusableEntry)
    (hfresh : ∀ e2 ∈ l, e2.entryId ≠ e.entryId) :
    (l ++ [e]).find? (fun x => x.entryId == e.entryId) = some e := by
  rw [find?_append_of_none _ l _ ?_]
  · exact List.find?_cons_of_pos _ (by simp)
  · rw [List.find?_eq_none]
    intro x hx
    simpa using hfresh x hx

lemma findChunkByResource_exists (st : HeapState) (rid : Nat) (c : Chunk)
    (hc : c ∈ st.chunks) (h : c.resourceId = rid) :
    ∃ c2, findChunkByResource st rid = some c2 := by
  unfold findChunkByResource
  have h2 : (st.chunks.find? fun c => c.resourceId == rid).isSome := by
    rw [List.find?_isSome]
    exact ⟨c, hc, by simp [h]⟩
  exact Option.isSome_iff_exists.mp h2

lemma lookupCache_snoc_self (l : List (ReusableCopyKey × Nat)) (k : ReusableCopyKey)
    (v : Nat) (h : lookupCache l k = none) : lookupCache (l ++ [(k, v)]) k = some v := by
  rw [lookupCache_append_left_none _ _ _ h]
  simp [lookupCache]

lemma reclaim_false_eq (st : HeapState) :
    reclaimAllocations (fun _ => false) st = st := by
  unfold reclaimAllocations reclaimChunk
  have h1 : ∀ c : Chunk,
      ({ c with allocations := c.allocations.filter fun a => a.locked || !false } : Chunk)
        = c := by
    intro c
    have h2 : (c.allocations.filter fun a => a.locked || !false) = c.allocations := by
      rw [List.filter_eq_self]
      intro a _
      simp
    rw [h2]
  rw [List.map_congr_left (fun c _ => h1 c), List.map_id']

/-- C1: for every upload request of size `s > 0`, `Reserve` places the
request exactly as the spec's placement algorithm dictates: the per-chunk
rule of the source coincides with the spec's steps 1-3 (`specFindOffset`),
chunks are tried in iteration order and the first chunk whose rule accepts
is used at the offset it returns, and when no chunk accepts, a new chunk of
size `max(current total capacity, minChunkSize, requested size)` is
appended and offset 0 in it is returned. -/
theorem C1_reserve_follows_spec_placement (cfg : Config) (env : Env) (st : HeapState)
    (s : Nat) (hs : 0 < s) :
    (∀ chunk : Chunk, FindOffsetForAllocation cfg.alignment chunk s =
      specFindOffset cfg.alignment chunk s) ∧
    (∀ i off c, st.chunks[i]? = some c →
      specFindOffset cfg.alignment c s = some off →
      (∀ j cj, j < i → st.chunks[j]? = some cj →
        specFindOffset cfg.alignment cj s = none) →
      reserve cfg env st s = .ok st i off) ∧
    ((∀ c ∈ st.chunks, specFindOffset cfg.alignment c s = none) → env.chunkOk = true →
      reserve cfg env st s = .ok
        { st with
            chunks := st.chunks ++ [⟨st.nextResourceId,
              max (max st.totalCapacity cfg.minChunkSize) s,
              max (max st.totalCapacity cfg.minChunkSize) s, []⟩],
            totalCapacity :=
              st.totalCapacity + max (max st.totalCapacity cfg.minChunkSize) s,
            nextResourceId := st.nextResourceId + 1 }
        st.chunks.length 0) := by
  refine ⟨fun chunk => findOffset_eq_spec _ _ _, ?_, ?_⟩
  · intro i off c hc hspec hmin
    have hfo : FindOffsetForAllocation cfg.alignment c s = some off := by
      rw [findOffset_eq_spec]; exact hspec
    have hfind : findChunkOffset cfg.alignment st.chunks s = some (i, off) := by
      refine findChunkOffset_of_first hc hfo ?_
      intro j cj hj hcj
      rw [findOffset_eq_spec]
      exact hmin j cj hj hcj
    unfold reserve
    rw [hfind]
  · intro hall hck
    have hnone : findChunkOffset cfg.alignment st.chunks s = none := by
      rw [findChunkOffset_none_iff]
      intro c hc
      rw [findOffset_eq_spec]
      exact hall c hc
    unfold reserve
    rw [hnone, if_pos hck]

def cfgC1 : Config := ⟨16, 1024, 2⟩

def stC1 : HeapState := ⟨[⟨0, 1024, 1024, []⟩], 1024, [], [], 0, 0, 1⟩

theorem C1_witness : reserve cfgC1 (okEnv 0) stC1 300 = .ok stC1 0 0 :=
  (C1_reserve_follows_spec_placement cfgC1 (okEnv 0) stC1 300 (by decide)).2.1
    0 0 ⟨0, 1024, 1024, []⟩ (by decide) (by decide)
    (fun j cj hj hcj => absurd hj (by omega))

/-- C2: from a freshly constructed heap, after every sequence of public
operations (`BeginUploadToGpu`, `BeginReusableUploadToGpu`, `Trim`) that
runs without undefined behaviour, the five §3 invariants hold: chunks are
sorted by ascending capacity, each chunk's capacity equals its resource's
size, every allocation lies inside its chunk at an aligned offset, no two
allocations of a chunk overlap, and `m_totalCapacity` equals the sum of
the chunk capacities. -/
theorem C2_five_invariants_hold (cfg : Config) (ha : 0 < cfg.alignment)
    (ops : List PublicOp) (hv : ∀ op ∈ ops, opValid op) (st : HeapState)
    (h : applyOps cfg initState ops = some st) : FiveInvariants cfg st :=
  heapInv_five cfg st (applyOps_inv cfg ha ops initState st (initState_inv cfg) hv h)

def cfgW : Config := ⟨16, 1024, 2⟩

def opsW : List PublicOp :=
  [.upload (okEnv 0) 1 0 300, .upload (okEnv 1) 1 0 200,
   .reusableUpload (okEnv 2) 1 0 64, .trimOp (fun _ => false)]

def stW : HeapState := (applyOps cfgW initState opsW).getD initState

theorem C2_witness : FiveInvariants cfgW stW :=
  C2_five_invariants_hold cfgW (by decide) opsW (by decide) stW (by decide)

/-- C6: from a freshly constructed heap, the LRU list
`m_reusableCommandLists` never exceeds `maxReusableCommandLists` entries
after any sequence of public operations. -/
theorem C6_lru_bound_invariant (cfg : Config) (ha : 0 < cfg.alignment)
    (ops : List PublicOp) (hv : ∀ op ∈ ops, opValid op) (st : HeapState)
    (h : applyOps cfg initState ops = some st) :
    st.reusableCommandLists.length ≤ cfg.maxReusableCommandLists :=
  (applyOps_inv cfg ha ops initState st (initState_inv cfg) hv h).lruBound

theorem C6_witness :
    stW.reusableCommandLists.length ≤ cfgW.maxReusableCommandLists :=
  C6_lru_bound_invariant cfgW (by decide) opsW (by decide) stW (by decide)

/-- C7: `Trim` never drops a chunk whose allocation list contains a locked
allocation: reclamation removes only unlocked allocations with a signalled
done event (so a locked allocation always survives it), and `Trim` erases
only chunks whose reclaimed allocation list is empty, so the chunk is
retained. -/
theorem C7_trim_keeps_locked_chunks (sig : Nat → Bool) (st : HeapState) (c : Chunk)
    (hc : c ∈ st.chunks) (hlocked : ∃ a ∈ c.allocations, a.locked = true) :
    reclaimChunk sig c ∈ (trim sig st).chunks ∧
    (∃ a ∈ (reclaimChunk sig c).allocations, a.locked = true) ∧
    (∀ b ∈ c.allocations, b ∉ (reclaimChunk sig c).allocations →
      b.locked = false ∧ sig b.doneEvent = true) := by
  obtain ⟨a, hma, hal⟩ := hlocked
  have hasurv : a ∈ (reclaimChunk sig c).allocations := by
    unfold reclaimChunk
    exact List.mem_filter.mpr ⟨hma, by simp [hal]⟩
  refine ⟨?_, ⟨a, hasurv, hal⟩, ?_⟩
  · show reclaimChunk sig c ∈
      ((reclaimAllocations sig st).chunks.filter fun c => !c.allocations.isEmpty)
    refine List.mem_filter.mpr ⟨List.mem_map.mpr ⟨c, hc, rfl⟩, ?_⟩
    cases hl : (reclaimChunk sig c).allocations with
    | nil => rw [hl] at hasurv; cases hasurv
    | cons x xs => simp [hl]
  · intro b hb hbnot
    unfold reclaimChunk at hbnot
    by_cases h1 : (b.locked || !sig b.doneEvent) = true
    · exact absurd (List.mem_filter.mpr ⟨hb, h1⟩) hbnot
    · constructor
      · cases hbl : b.locked
        · rfl
        · exact absurd (by simp [hbl]) h1
      · cases hbs : sig b.doneEvent
        · exact absurd (by simp [hbs]) h1
        · rfl

def sigC7 : Nat → Bool := fun _ => true

def stC7 : HeapState :=
  ⟨[⟨0, 64, 64, [⟨0, 16, 0, 0, true⟩, ⟨1, 16, 16, 0, false⟩]⟩], 64, [], [], 2, 0, 1⟩

theorem C7_witness :
    reclaimChunk sigC7 ⟨0, 64, 64, [⟨0, 16, 0, 0, true⟩, ⟨1, 16, 16, 0, false⟩]⟩ ∈
      (trim sigC7 stC7).chunks ∧
    (∃ a ∈ (reclaimChunk sigC7
        ⟨0, 64, 64, [⟨0, 16, 0, 0, true⟩, ⟨1, 16, 16, 0, false⟩]⟩).allocations,
      a.locked = true) :=
  ⟨(C7_trim_keeps_locked_chunks sigC7 stC7 _ (by decide) (by decide)).1,
   (C7_trim_keeps_locked_chunks sigC7 stC7 _ (by decide) (by decide)).2.1⟩

lemma clog_100 : Nat.clog 2 100 = 7 := by norm_num [Nat.clog]

lemma clog_65537 : Nat.clog 2 65537 = 17 := by norm_num [Nat.clog]

lemma clog_1048576 : Nat.clog 2 1048576 = 20 := by norm_num [Nat.clog]

lemma crs_le (s : Nat) (hle : s ≤ 2 ^ 16) : ComputeRequiredSize s = 2 ^ 16 := by
  unfold ComputeRequiredSize
  rw [if_pos hle]

lemma crs_gt (s : Nat) (hgt : 2 ^ 16 < s) :
    s ≤ ComputeRequiredSize s ∧ (∃ k, ComputeRequiredSize s = 2 ^ k) ∧
    (∀ k, s ≤ 2 ^ k → ComputeRequiredSize s ≤ 2 ^ k) := by
  have h2 : (1 : Nat) < 2 := by norm_num
  unfold ComputeRequiredSize
  rw [if_neg (by omega)]
  refine ⟨Nat.le_pow_clog h2 s, ⟨Nat.clog 2 s, rfl⟩, ?_⟩
  intro k hk
  exact Nat.pow_le_pow_right (by norm_num) ((Nat.le_pow_iff_clog_le h2).mp hk)

lemma bucket_size_of_index (s : Nat) :
    GetBucketSizeFromIndex (GetBucketIndexFromSize s) = ComputeRequiredSize s := by
  have h2 : (1 : Nat) < 2 := by norm_num
  unfold GetBucketSizeFromIndex GetBucketIndexFromSize ComputeRequiredSize
  by_cases hle : s ≤ 2 ^ 16
  · rw [if_pos hle]
    have hclog : Nat.clog 2 s ≤ 16 := (Nat.le_pow_iff_clog_le h2).mp hle
    have h0 : Nat.clog 2 s - 16 = 0 := by omega
    rw [h0]
  · rw [if_neg hle]
    have hclog : 16 < Nat.clog 2 s := by
      by_contra hcon
      exact hle ((Nat.le_pow_iff_clog_le h2).mpr (by omega))
    congr 1
    omega

lemma idx_100 : GetBucketIndexFromSize 100 = 0 := by
  rw [GetBucketIndexFromSize, clog_100]

lemma crs_100 : ComputeRequiredSize 100 = 65536 := by
  unfold ComputeRequiredSize
  norm_num

lemma idx_65537 : GetBucketIndexFromSize 65537 = 1 := by
  rw [GetBucketIndexFromSize, clog_65537]

lemma crs_65537 : ComputeRequiredSize 65537 = 131072 := by
  unfold ComputeRequiredSize
  rw [if_neg (by norm_num), clog_65537]
  norm_num

lemma idx_1048576 : GetBucketIndexFromSize 1048576 = 4 := by
  rw [GetBucketIndexFromSize, clog_1048576]

lemma crs_1048576 : ComputeRequiredSize 1048576 = 1048576 := by
  unfold ComputeRequiredSize
  rw [if_neg (by norm_num), clog_1048576]
  norm_num

/-- C9: `ComputeRequiredSize` returns `2^16` for sizes up to `2^16` and the
least power of two at least `s` otherwise; the bucket index is
`max(0, ceil(log2 s) - 16)` and the bucket of that index has exactly the
required backing size; in particular size 100 lands in bucket 0 backed by
65536 bytes, 65537 in bucket 1 backed by 131072, and `1 <<< 20` in bucket 4
backed by 1048576. -/
theorem C9_bucket_sizing (s : Nat) (hs : 0 < s) :
    (s ≤ 2 ^ 16 → ComputeRequiredSize s = 2 ^ 16) ∧
    (2 ^ 16 < s →
      s ≤ ComputeRequiredSize s ∧ (∃ k, ComputeRequiredSize s = 2 ^ k) ∧
      (∀ k, s ≤ 2 ^ k → ComputeRequiredSize s ≤ 2 ^ k)) ∧
    GetBucketSizeFromIndex (GetBucketIndexFromSize s) = ComputeRequiredSize s ∧
    GetBucketIndexFromSize 100 = 0 ∧ ComputeRequiredSize 100 = 65536 ∧
    GetBucketIndexFromSize 65537 = 1 ∧ ComputeRequiredSize 65537 = 131072 ∧
    GetBucketIndexFromSize 1048576 = 4 ∧ ComputeRequiredSize 1048576 = 1048576 :=
  ⟨crs_le s, crs_gt s, bucket_size_of_index s, idx_100, crs_100, idx_65537,
    crs_65537, idx_1048576, crs_1048576⟩

theorem C9_witness :
    GetBucketIndexFromSize 100 = 0 ∧ ComputeRequiredSize 100 = 65536 :=
  ⟨(C9_bucket_sizing 100 (by decide)).2.2.2.1,
   (C9_bucket_sizing 100 (by decide)).2.2.2.2.1⟩

/-- C10 counterexample: after `Alloc → 1`, `Alloc → 2`, `Alloc → 3`,
`Free(1)`, `Free(2)`, the free pool holds `[1, 2]`; the next `Alloc` pops
the back of the pool and returns 2 even though the smaller freed ID 1 is
still available (the final pool is `[1]`), so IDs are not drawn from the
smallest available value. -/
theorem C10_counterexample :
    applyIdOps initIdState [.alloc, .alloc, .alloc, .free 1, .free 2, .alloc] =
      some (⟨3, [1], [3, 2]⟩, [1, 2, 3, 2]) := by
  decide

/-- C10 (amended): allocation IDs are 1-based and never 0, the live IDs form
a duplicate-free set after every run, ID reservation pops the most recently
freed ID from `free_allocation_ids` when the pool is non-empty (leaving
`current_allocation_id` untouched, so a freed ID always reappears before a
new, strictly larger ID is minted) and mints `current_allocation_id + 1`
only when the pool is empty; the literal trace is
`Alloc → 1, Alloc → 2, Free(first), Alloc → 1, Alloc → 3`. -/
theorem C10_id_reservation (ops : List IdOp) (st2 : IdState) (ids : List Nat)
    (h : applyIdOps initIdState ops = some (st2, ids)) :
    st2.liveIds.Nodup ∧ (∀ i ∈ ids, 0 < i) ∧ (∀ i ∈ st2.liveIds, 0 < i) ∧
    (∀ st : IdState, IdInv st → ∀ rid stN, idAlloc st = some (rid, stN) →
      (st.free_allocation_ids ≠ [] →
        st.free_allocation_ids.getLast? = some rid ∧
        rid ≤ st.current_allocation_id ∧
        stN.current_allocation_id = st.current_allocation_id) ∧
      (st.free_allocation_ids = [] → rid = st.current_allocation_id + 1)) ∧
    applyIdOps initIdState [.alloc, .alloc, .free 1, .alloc, .alloc] =
      some (⟨3, [], [2, 1, 3]⟩, [1, 2, 1, 3]) := by
  obtain ⟨hI2, hids⟩ := applyIdOps_inv ops initIdState st2 ids initIdState_inv h
  refine ⟨hI2.1, hids, ?_, ?_, by decide⟩
  · intro i hi
    exact (hI2.2.2.2.1 i hi).1
  · intro st hIst rid stN halloc
    obtain ⟨_, _, _, hpool, hmint⟩ := idAlloc_spec st rid stN hIst halloc
    refine ⟨?_, hmint⟩
    intro hne
    obtain ⟨hmem, hlastrid, hcur⟩ := hpool hne
    exact ⟨hlastrid, (hIst.2.2.2.2 rid hmem).2, hcur⟩

theorem C10_witness :
    (⟨1, [], [1]⟩ : IdState).liveIds.Nodup ∧
    applyIdOps initIdState [.alloc, .alloc, .free 1, .alloc, .alloc] =
      some (⟨3, [], [2, 1, 3]⟩, [1, 2, 1, 3]) :=
  ⟨(C10_id_reservation [.alloc] ⟨1, [], [1]⟩ [1] (by decide)).1,
   (C10_id_reservation [.alloc] ⟨1, [], [1]⟩ [1] (by decide)).2.2.2.2⟩

def cfgC3 : Config := ⟨16, 64, 1⟩

def stC3 : HeapState :=
  ⟨[⟨0, 64, 64, [⟨0, 16, 0, 0, true⟩]⟩], 64, [⟨0, 0, 0⟩],
   [(⟨1, 0, 16⟩, 0)], 1, 1, 1⟩

def stC3' : HeapState :=
  ⟨[⟨0, 64, 64, [⟨0, 16, 0, 0, false⟩, ⟨1, 16, 16, 5, true⟩]⟩], 64,
   [⟨1, 1, 0⟩], [(⟨1, 0, 16⟩, 0), (⟨2, 0, 16⟩, 1)], 2, 2, 1⟩

/-- C3: on a cache miss with a full LRU list, the eviction block pops the
front entry and unlocks its allocation, but `m_reusableCommandListsCache.erase(key)`
erases the looked-up key — which the enclosing condition just established is
absent — instead of the evicted entry's key.  Evaluated at a concrete heap
whose single cached command list has key `⟨1, 0, 16⟩` and whose LRU list is
full, a miss on key `⟨2, 0, 16⟩` leaves the evicted key `⟨1, 0, 16⟩` in the
cache even though no live command list with its entry remains: the cache
entry now denotes an invalidated list iterator. -/
theorem C3_eviction_erases_wrong_key :
    beginReusableUploadToGpu cfgC3 (okEnv 5) stC3 2 0 16 = .ok stC3' 5 (some 1) ∧
    lookupCache stC3'.reusableCommandListsCache ⟨1, 0, 16⟩ = some 0 ∧
    (∀ e ∈ stC3'.reusableCommandLists, e.entryId ≠ 0) := by
  refine ⟨by decide, by decide, by decide⟩

def cfgC5 : Config := ⟨16, 64, 2⟩

def stC5 : HeapState :=
  ⟨[⟨0, 64, 64, [⟨0, 16, 0, 0, true⟩, ⟨1, 16, 16, 0, true⟩]⟩], 64,
   [⟨0, 0, 0⟩, ⟨1, 1, 0⟩], [(⟨1, 0, 16⟩, 0), (⟨2, 0, 16⟩, 1)], 2, 2, 1⟩

def stC5' : HeapState :=
  ⟨[⟨0, 64, 64, [⟨0, 16, 0, 7, true⟩, ⟨1, 16, 16, 0, true⟩]⟩], 64,
   [⟨0, 0, 0⟩, ⟨1, 1, 0⟩], [(⟨1, 0, 16⟩, 0), (⟨2, 0, 16⟩, 1)], 2, 2, 1⟩

/-- C5 counterexample: a cache hit on the entry with `entryId 0` (the front
of a two-entry LRU list) executes that entry but leaves the list order
unchanged — the most-recent (back) position still holds the other entry,
`entryId 1` — so the hit entry's LRU position is not updated to
most-recent. -/
theorem C5_counterexample :
    beginReusableUploadToGpu cfgC5 (okEnv 7) stC5 1 0 16 = .ok stC5' 7 (some 0) ∧
    stC5'.reusableCommandLists.getLast? = some ⟨1, 1, 0⟩ ∧
    (⟨1, 1, 0⟩ : ReusableEntry).entryId ≠ 0 := by
  refine ⟨by decide, by decide, by decide⟩

/-- C5 (amended): a cache hit re-executes the cached command list but does
not touch `m_reusableCommandLists` at all: the LRU list after a successful
hit equals the list before the call, so eviction order is
insertion-ordered (FIFO), not recency-ordered. -/
theorem C5_hit_leaves_lru_order (cfg : Config) (env : Env) (st st2 : HeapState)
    (d o s : Nat) (r : Nat) (x : Option Nat)
    (hhit : lookupCache st.reusableCommandListsCache ⟨d, o, s⟩ ≠ none)
    (h : beginReusableUploadToGpu cfg env st d o s = .ok st2 r x) :
    st2.reusableCommandLists = st.reusableCommandLists := by
  have hev : evictStep cfg st ⟨d, o, s⟩ = some st := by
    unfold evictStep
    rw [if_neg]
    intro hc
    exact hhit hc.1
  unfold beginReusableUploadToGpu at h
  dsimp only at h
  rw [hev] at h
  dsimp only at h
  cases hkey : lookupCache st.reusableCommandListsCache ⟨d, o, s⟩ with
  | none => exact absurd hkey hhit
  | some eid =>
    rw [hkey] at h
    dsimp only at h
    cases hfind : (reclaimAllocations env.signaled st).reusableCommandLists.find?
        (fun e => e.entryId == eid) with
    | none =>
      rw [hfind] at h
      dsimp only at h
      cases h
    | some e =>
      rw [hfind] at h
      dsimp only at h
      cases hfa : findAllocation (reclaimAllocations env.signaled st) e.allocId with
      | none =>
        rw [hfa] at h
        cases hfc : findChunkByResource (reclaimAllocations env.signaled st)
            e.chunkResourceId with
        | none => rw [hfc] at h; dsimp only at h; cases h
        | some c => rw [hfc] at h; dsimp only at h; cases h
      | some a =>
        rw [hfa] at h
        cases hfc : findChunkByResource (reclaimAllocations env.signaled st)
            e.chunkResourceId with
        | none => rw [hfc] at h; dsimp only at h; cases h
        | some c =>
          rw [hfc] at h
          dsimp only at h
          by_cases hm : env.mapOk
          case neg =>
            simp only [hm, Bool.not_false, if_true] at h
            cases h
          by_cases hx2 : env.execOk
          case neg =>
            simp only [hm, hx2, Bool.not_true, Bool.not_false, Bool.false_eq_true,
              if_false, if_true] at h
            cases h
          simp only [hm, hx2, Bool.not_true, Bool.false_eq_true, if_false] at h
          injection h with h1 h2 h3
          rw [← h1]
          rfl

theorem C5_witness : stC5'.reusableCommandLists = stC5.reusableCommandLists :=
  C5_hit_leaves_lru_order cfgC5 (okEnv 7) stC5 stC5' 1 0 16 7 (some 0)
    (by decide) (by decide)

lemma totalAllocCount_pushAlloc (st : HeapState) (i : Nat) (a : Allocation)
    (hi : i < st.chunks.length) :
    totalAllocCount (pushAlloc st i a) = totalAllocCount st + 1 := by
  show ((modifyNth _ i st.chunks).map fun c => c.allocations.length).sum = _
  exact sum_map_modifyNth _ _ 1 (fun x => by simp) i st.chunks hi

lemma reserve_ok_count (cfg : Config) (env : Env) (st st2 : HeapState)
    (s i off : Nat) (h : reserve cfg env st s = .ok st2 i off) :
    totalAllocCount st2 = totalAllocCount st := by
  unfold reserve at h
  cases hfind : findChunkOffset cfg.alignment st.chunks s with
  | some p =>
    rw [hfind] at h
    injection h with h1 h2 h3
    rw [← h1]
  | none =>
    rw [hfind] at h
    by_cases hck : env.chunkOk
    · rw [if_pos hck] at h
      injection h with h1 h2 h3
      rw [← h1]
      simp [totalAllocCount]
    · rw [if_neg hck] at h
      cases h

lemma evictStep_count (cfg : Config) (st stE : HeapState) (key : ReusableCopyKey)
    (h : evictStep cfg st key = some stE) :
    totalAllocCount stE = totalAllocCount st := by
  unfold evictStep at h
  by_cases hc : lookupCache st.reusableCommandListsCache key = none ∧
      st.reusableCommandLists.length = cfg.maxReusableCommandLists
  · rw [if_pos hc] at h
    cases hl : st.reusableCommandLists with
    | nil => rw [hl] at h; cases h
    | cons e rest =>
      rw [hl] at h
      injection h with h
      rw [← h]
      exact totalAllocCount_setUnlocked _ _
  · rw [if_neg hc] at h
    injection h with h
    rw [← h]

lemma beginUpload_err_count (cfg : Config) (env : Env) (st st2 : HeapState)
    (d o s : Nat) (h : beginUploadToGpu cfg env st d o s = .err st2) :
    totalAllocCount st2 ≤ totalAllocCount st := by
  have hrecl : totalAllocCount (reclaimAllocations env.signaled st) ≤ totalAllocCount st :=
    totalAllocCount_reclaim_le _ _
  unfold beginUploadToGpu at h
  dsimp only at h
  cases hres : reserve cfg env (reclaimAllocations env.signaled st) s with
  | err st3 =>
    rw [hres] at h
    dsimp only at h
    injection h with h
    rw [← h, reserve_err_eq _ _ _ _ _ hres]
    exact hrecl
  | ok st3 i off =>
    rw [hres] at h
    dsimp only at h
    have hcnt : totalAllocCount st3 = totalAllocCount (reclaimAllocations env.signaled st) :=
      reserve_ok_count _ _ _ _ _ _ _ hres
    by_cases hm : env.mapOk
    · by_cases hcp : env.copyOk
      · simp only [hm, hcp, Bool.not_true, Bool.false_eq_true, if_false] at h
        cases h
      · simp only [hm, hcp, Bool.not_true, Bool.not_false, Bool.false_eq_true,
          if_false, if_true] at h
        injection h with h
        rw [← h]
        omega
    · simp only [hm, Bool.not_false, if_true] at h
      injection h with h
      rw [← h]
      omega

lemma beginReusable_err_count (cfg : Config) (env : Env) (st st2 : HeapState)
    (d o s : Nat) (h : beginReusableUploadToGpu cfg env st d o s = .err st2) :
    totalAllocCount st2 ≤ totalAllocCount st + 1 ∧
    (env.execOk = true → totalAllocCount st2 ≤ totalAllocCount st) := by
  unfold beginReusableUploadToGpu at h
  dsimp only at h
  cases hev : evictStep cfg st ⟨d, o, s⟩ with
  | none => rw [hev] at h; cases h
  | some stE =>
    rw [hev] at h
    dsimp only at h
    have hEc : totalAllocCount stE = totalAllocCount st := evictStep_count _ _ _ _ hev
    have hrecl : totalAllocCount (reclaimAllocations env.signaled stE) ≤
        totalAllocCount stE := totalAllocCount_reclaim_le _ _
    cases hkey : lookupCache st.reusableCommandListsCache ⟨d, o, s⟩ with
    | some eid =>
      rw [hkey] at h
      dsimp only at h
      cases hfind : (reclaimAllocations env.signaled stE).reusableCommandLists.find?
          (fun e => e.entryId == eid) with
      | none => rw [hfind] at h; dsimp only at h; cases h
      | some e =>
        rw [hfind] at h
        dsimp only at h
        cases hfa : findAllocation (reclaimAllocations env.signaled stE) e.allocId with
        | none =>
          rw [hfa] at h
          cases hfc : findChunkByResource (reclaimAllocations env.signaled stE)
              e.chunkResourceId with
          | none => rw [hfc] at h; dsimp only at h; cases h
          | some c => rw [hfc] at h; dsimp only at h; cases h
        | some a =>
          rw [hfa] at h
          cases hfc : findChunkByResource (reclaimAllocations env.signaled stE)
              e.chunkResourceId with
          | none => rw [hfc] at h; dsimp only at h; cases h
          | some c =>
            rw [hfc] at h
            dsimp only at h
            by_cases hm : env.mapOk
            · by_cases hx2 : env.execOk
              · simp only [hm, hx2, Bool.not_true, Bool.false_eq_true, if_false] at h
                cases h
              · simp only [hm, hx2, Bool.not_true, Bool.not_false, Bool.false_eq_true,
                  if_false, if_true] at h
                injection h with h
                rw [← h]
                constructor
                · omega
                · intro he
                  rw [he] at hx2
                  cases hx2 rfl
            · simp only [hm, Bool.not_false, if_true] at h
              injection h with h
              rw [← h]
              exact ⟨by omega, fun _ => by omega⟩
    | none =>
      rw [hkey] at h
      dsimp only at h
      cases hres : reserve cfg env (reclaimAllocations env.signaled stE) s with
      | err st3 =>
        rw [hres] at h
        dsimp only at h
        injection h with h
        rw [← h, reserve_err_eq _ _ _ _ _ hres]
        exact ⟨by omega, fun _ => by omega⟩
      | ok st3 i off =>
        rw [hres] at h
        dsimp only at h
        have hcnt : totalAllocCount st3 =
            totalAllocCount (reclaimAllocations env.signaled stE) :=
          reserve_ok_count _ _ _ _ _ _ _ hres
        by_cases hal : env.allocatorOk
        case neg =>
          simp only [hal, Bool.not_false, if_true] at h
          injection h with h
          rw [← h]
          exact ⟨by omega, fun _ => by omega⟩
        by_cases hli : env.listOk
        case neg =>
          simp only [hal, hli, Bool.not_true, Bool.not_false, Bool.false_eq_true,
            if_false, if_true] at h
          injection h with h
          rw [← h]
          exact ⟨by omega, fun _ => by omega⟩
        by_cases hm : env.mapOk
        case neg =>
          simp only [hal, hli, hm, Bool.not_true, Bool.not_false, Bool.false_eq_true,
            if_false, if_true] at h
          injection h with h
          rw [← h]
          exact ⟨by omega, fun _ => by omega⟩
        simp only [hal, hli, hm, Bool.not_true, Bool.false_eq_true, if_false] at h
        cases hget : ({ pushAlloc st3 i ⟨st3.nextAllocId, s, off, env.ev, true⟩ with
            nextAllocId := st3.nextAllocId + 1 } : HeapState).chunks.get? i with
        | none => rw [hget] at h; dsimp only at h; cases h
        | some c =>
          rw [hget] at h
          dsimp only at h
          have hi : i < st3.chunks.length := by
            rw [List.get?_eq_getElem?] at hget
            rcases List.getElem?_eq_some.mp hget with ⟨hlt, _⟩
            rw [show ({ pushAlloc st3 i ⟨st3.nextAllocId, s, off, env.ev, true⟩ with
                nextAllocId := st3.nextAllocId + 1 } : HeapState).chunks.length =
                (modifyNth (fun c => { c with allocations := c.allocations ++
                  [(⟨st3.nextAllocId, s, off, env.ev, true⟩ : Allocation)] })
                  i st3.chunks).length from rfl, length_modifyNth] at hlt
            exact hlt
          have hpc : totalAllocCount (pushAlloc st3 i
              ⟨st3.nextAllocId, s, off, env.ev, true⟩) = totalAllocCount st3 + 1 :=
            totalAllocCount_pushAlloc _ _ _ hi
          by_cases hx2 : env.execOk
          · simp only [hx2, Bool.not_true, Bool.false_eq_true, if_false] at h
            cases h
          · simp only [hx2, Bool.not_false, if_true] at h
            injection h with h
            rw [← h]
            constructor
            · show totalAllocCount (pushAlloc st3 i _) ≤ _
              omega
            · intro he
              rw [he] at hx2
              cases hx2 rfl

def cfgC8 : Config := ⟨16, 64, 2⟩

def envC8 : Env := ⟨true, true, true, true, true, false, fun _ => false, 3⟩

def stC8 : HeapState :=
  ⟨[⟨0, 64, 64, [⟨0, 4, 0, 3, true⟩]⟩], 64, [], [], 1, 0, 1⟩

/-- C8 counterexample: with every call succeeding except
`ExecuteCommandList`, `BeginReusableUploadToGpu` on a fresh heap propagates
the execution failure but leaves one (locked) `Allocation` record behind —
the record is pushed at source line 274, before `ExecuteCommandList` runs
at line 288 — refuting the claim that no allocation is recorded in a
failing call. -/
theorem C8_counterexample :
    beginReusableUploadToGpu cfgC8 envC8 initState 1 0 4 = .err stC8 ∧
    totalAllocCount stC8 = 1 ∧ totalAllocCount initState = 0 := by
  refine ⟨by decide, by decide, by decide⟩

/-- C8 (amended): device, mapping and execution failures propagate and
`BeginUploadToGpu` never records an allocation in a failing call (the
total allocation count cannot grow past reclamation); the same holds for
`BeginReusableUploadToGpu` whenever `ExecuteCommandList` succeeds, but an
`ExecuteCommandList` failure on the cached miss path occurs after the
locked allocation was already pushed, so such a failing call can leave at
most one new allocation record behind. -/
theorem C8_error_paths (cfg : Config) (env : Env) (st st2 : HeapState)
    (d o s : Nat) :
    (beginUploadToGpu cfg env st d o s = .err st2 →
      totalAllocCount st2 ≤ totalAllocCount st) ∧
    (env.execOk = true → beginReusableUploadToGpu cfg env st d o s = .err st2 →
      totalAllocCount st2 ≤ totalAllocCount st) ∧
    (beginReusableUploadToGpu cfg env st d o s = .err st2 →
      totalAllocCount st2 ≤ totalAllocCount st + 1) :=
  ⟨fun h => beginUpload_err_count cfg env st st2 d o s h,
   fun he h => (beginReusable_err_count cfg env st st2 d o s h).2 he,
   fun h => (beginReusable_err_count cfg env st st2 d o s h).1⟩

def envC8m : Env := ⟨true, true, true, false, true, true, fun _ => false, 3⟩

def stC8m : HeapState := ⟨[⟨0, 64, 64, []⟩], 64, [], [], 0, 0, 1⟩

theorem C8_witness : totalAllocCount stC8m ≤ totalAllocCount initState :=
  (C8_error_paths cfgC8 envC8m initState stC8m 1 0 4).1 (by decide)

lemma hit_call_spec (cfg : Config) (env : Env) (st : HeapState) (d o s eid : Nat)
    (e : ReusableEntry) (a1 : Allocation) (c : Chunk)
    (hkey : lookupCache st.reusableCommandListsCache ⟨d, o, s⟩ = some eid)
    (hsig : reclaimAllocations env.signaled st = st)
    (hfind : st.reusableCommandLists.find? (fun x => x.entryId == eid) = some e)
    (hfa : findAllocation st e.allocId = some a1)
    (hfc : findChunkByResource st e.chunkResourceId = some c)
    (hm : env.mapOk = true) (hx : env.execOk = true) :
    beginReusableUploadToGpu cfg env st d o s =
      .ok (setDoneEvent e.allocId env.ev st) env.ev (some eid) := by
  have hev : evictStep cfg st ⟨d, o, s⟩ = some st := by
    unfold evictStep
    rw [if_neg]
    intro hc
    rw [hkey] at hc
    cases hc.1
  unfold beginReusableUploadToGpu
  dsimp only
  rw [hev]
  dsimp only
  rw [hkey]
  dsimp only
  rw [hsig, hfind]
  dsimp only
  rw [hfa, hfc]
  dsimp only
  simp only [hm, hx, Bool.not_true, Bool.false_eq_true, if_false]

/-- The staging allocation the miss path of `BeginReusableUploadToGpu`
creates after `Reserve` hands back chunk `i` and offset `off`. -/
def missAlloc (st2 : HeapState) (s off ev : Nat) : Allocation :=
  ⟨st2.nextAllocId, s, off, ev, true⟩

/-- The heap state right after the miss path pushes its staging
allocation into chunk `i`. -/
def missMid (st2 : HeapState) (i s off ev : Nat) : HeapState :=
  { pushAlloc st2 i (missAlloc st2 s off ev) with nextAllocId := st2.nextAllocId + 1 }

/-- The LRU entry the miss path appends for the new command list. -/
def missEntry (st2 : HeapState) (i s off ev : Nat) (c : Chunk) : ReusableEntry :=
  ⟨(missMid st2 i s off ev).nextEntryId, st2.nextAllocId, c.resourceId⟩

/-- The final heap state of a fully successful miss path: the new entry
joins the LRU list and the cache, and the entry counter advances. -/
def missFinal (st2 : HeapState) (i s off ev : Nat) (c : Chunk)
    (key : ReusableCopyKey) : HeapState :=
  { missMid st2 i s off ev with
      reusableCommandLists :=
        (missMid st2 i s off ev).reusableCommandLists ++ [missEntry st2 i s off ev c],
      reusableCommandListsCache :=
        (missMid st2 i s off ev).reusableCommandListsCache ++
          [(key, (missEntry st2 i s off ev c).entryId)],
      nextEntryId := (missMid st2 i s off ev).nextEntryId + 1 }

lemma miss_call_eq (cfg : Config) (env : Env) (st stE st2 : HeapState)
    (d o s i off : Nat) (c : Chunk)
    (hkey : lookupCache st.reusableCommandListsCache ⟨d, o, s⟩ = none)
    (hev : evictStep cfg st ⟨d, o, s⟩ = some stE)
    (hsig : reclaimAllocations env.signaled stE = stE)
    (hres : reserve cfg env stE s = .ok st2 i off)
    (hc : (missMid st2 i s off env.ev).chunks.get? i = some c)
    (hallocOk : env.allocatorOk = true) (hlistOk : env.listOk = true)
    (hmapOk : env.mapOk = true) (hexecOk : env.execOk = true) :
    beginReusableUploadToGpu cfg env st d o s =
      .ok (missFinal st2 i s off env.ev c ⟨d, o, s⟩) env.ev
        (some (missEntry st2 i s off env.ev c).entryId) := by
  unfold missMid missAlloc at hc
  unfold beginReusableUploadToGpu
  dsimp only
  rw [hev]
  dsimp only
  rw [hkey]
  dsimp only
  rw [hsig, hres]
  dsimp only
  simp only [hallocOk, hlistOk, hmapOk, Bool.not_true, Bool.false_eq_true, if_false]
  rw [hc]
  dsimp only
  simp only [hexecOk, Bool.not_true, Bool.false_eq_true, if_false]
  rfl

lemma miss_call_spec (cfg : Config) (env : Env) (st : HeapState) (d o s : Nat)
    (ha : 0 < cfg.alignment) (hmax : 0 < cfg.maxReusableCommandLists)
    (hI : HeapInv cfg st) (hs : 0 < s)
    (hkey : lookupCache st.reusableCommandListsCache ⟨d, o, s⟩ = none)
    (hallocOk : env.allocatorOk = true) (hlistOk : env.listOk = true)
    (hmapOk : env.mapOk = true) (hexecOk : env.execOk = true)
    (hchunkOk : env.chunkOk = true)
    (hsigf : env.signaled = fun _ => false) :
    ∃ st1 e a1,
      beginReusableUploadToGpu cfg env st d o s = .ok st1 env.ev (some e.entryId) ∧
      HeapInv cfg st1 ∧
      st1.reusableCommandLists.getLast? = some e ∧
      lookupCache st1.reusableCommandListsCache ⟨d, o, s⟩ = some e.entryId ∧
      st1.reusableCommandLists.find? (fun x => x.entryId == e.entryId) = some e ∧
      findAllocation st1 e.allocId = some a1 ∧
      a1.sizeInBytes = s ∧ a1.doneEvent = env.ev ∧ a1.locked = true ∧
      (∃ c, findChunkByResource st1 e.chunkResourceId = some c) ∧
      totalAllocCount st1 = totalAllocCount st + 1 := by
  obtain ⟨stE, hev⟩ : ∃ stE, evictStep cfg st ⟨d, o, s⟩ = some stE := by
    unfold evictStep
    by_cases hc : lookupCache st.reusableCommandListsCache ⟨d, o, s⟩ = none ∧
        st.reusableCommandLists.length = cfg.maxReusableCommandLists
    · rw [if_pos hc]
      cases hl : st.reusableCommandLists with
      | nil =>
        exfalso
        have h2 := hc.2
        rw [hl] at h2
        simp only [List.length_nil] at h2
        omega
      | cons e0 rest => exact ⟨_, rfl⟩
    · rw [if_neg hc]
      exact ⟨st, rfl⟩
  obtain ⟨hIE, hEa, hEe, hEr, hEc, hmissLen, hhitEq, hElook⟩ :=
    evictStep_spec cfg _ st stE hI hev
  have hsigE : reclaimAllocations env.signaled stE = stE := by
    rw [hsigf]
    exact reclaim_false_eq stE
  obtain ⟨st2, i, off, hres⟩ : ∃ st2 i off, reserve cfg env stE s = .ok st2 i off := by
    unfold reserve
    cases hfind : findChunkOffset cfg.alignment stE.chunks s with
    | some p =>
      obtain ⟨i0, off0⟩ := p
      dsimp only
      exact ⟨stE, i0, off0, rfl⟩
    | none =>
      dsimp only
      rw [if_pos hchunkOk]
      exact ⟨_, _, _, rfl⟩
  obtain ⟨hI2, hcex, hlists2, hcache2, hnA2, hnE2, hcnt2⟩ :=
    reserve_ok_spec cfg env stE st2 s i off hIE hs hres
  obtain ⟨c0, hc0, hfo⟩ := hcex
  obtain ⟨hI3, hc3, hcnt3⟩ := push_inv cfg st2 i off s env.ev true hI2 ha hs c0 hc0 hfo
  obtain ⟨c3, hcM⟩ : ∃ c3, (missMid st2 i s off env.ev).chunks.get? i = some c3 := by
    rw [List.get?_eq_getElem?]
    exact ⟨_, hc3⟩
  have hout := miss_call_eq cfg env st stE st2 d o s i off c3
    hkey hev hsigE hres hcM hallocOk hlistOk hmapOk hexecOk
  refine ⟨missFinal st2 i s off env.ev c3 ⟨d, o, s⟩, missEntry st2 i s off env.ev c3,
    missAlloc st2 s off env.ev, hout, ?_, ?_, ?_, ?_, ?_, rfl, rfl, rfl, ?_, ?_⟩
  · have h := beginReusable_inv cfg env st d o s ha hI hs
    rw [hout] at h
    exact h
  · show ((missMid st2 i s off env.ev).reusableCommandLists ++
        [missEntry st2 i s off env.ev c3]).getLast? = some (missEntry st2 i s off env.ev c3)
    exact List.getLast?_concat _
  · have hnone1 : lookupCache (missMid st2 i s off env.ev).reusableCommandListsCache
        ⟨d, o, s⟩ = none := by
      show lookupCache st2.reusableCommandListsCache ⟨d, o, s⟩ = none
      rw [hcache2, hElook]
      exact hkey
    show lookupCache ((missMid st2 i s off env.ev).reusableCommandListsCache ++
        [(⟨d, o, s⟩, (missEntry st2 i s off env.ev c3).entryId)]) ⟨d, o, s⟩ =
      some (missEntry st2 i s off env.ev c3).entryId
    exact lookupCache_snoc_self _ _ _ hnone1
  · show ((missMid st2 i s off env.ev).reusableCommandLists ++
        [missEntry st2 i s off env.ev c3]).find?
        (fun x => x.entryId == (missEntry st2 i s off env.ev c3).entryId) =
      some (missEntry st2 i s off env.ev c3)
    refine find?_entries_snoc _ _ ?_
    intro e2 he2
    have h2 : e2.entryId < st2.nextEntryId := hI2.entryFresh e2 he2
    show e2.entryId ≠ st2.nextEntryId
    omega
  · show findAllocation (pushAlloc st2 i (missAlloc st2 s off env.ev))
        (missAlloc st2 s off env.ev).allocId = some (missAlloc st2 s off env.ev)
    have hfr : ∀ c2 ∈ st2.chunks, ∀ b ∈ c2.allocations,
        b.allocId ≠ (missAlloc st2 s off env.ev).allocId := by
      intro c2 hc2 b hb
      have h2 : b.allocId < st2.nextAllocId := hI2.allocFresh c2 hc2 b hb
      show b.allocId ≠ st2.nextAllocId
      omega
    exact findAllocation_after_push st2 i c0 (missAlloc st2 s off env.ev) hc0 hfr
  · have hmem : c3 ∈ (missFinal st2 i s off env.ev c3 ⟨d, o, s⟩).chunks := by
      have h2 : (missFinal st2 i s off env.ev c3 ⟨d, o, s⟩).chunks[i]? = some c3 := by
        rw [← List.get?_eq_getElem?]
        exact hcM
      exact List.getElem?_mem h2
    exact findChunkByResource_exists _ _ c3 hmem rfl
  · have h2 : totalAllocCount (missFinal st2 i s off env.ev c3 ⟨d, o, s⟩) =
        totalAllocCount st2 + 1 := hcnt3
    rw [h2, hcnt2, hEc]

/-- C4: two consecutive `BeginReusableUploadToGpu` calls with the same key
allocate the staging slot exactly once.  From any reachable state in which
the key is not yet cached, the first call creates exactly one staging
allocation and caches its command list; the second call finds the key in the
cache, executes the same stored entry (same id), adds no allocation, keeps
the stored staging offset and size, and overwrites the allocation's done
event with the second call's completion event. -/
theorem C4_cached_path_single_allocation (cfg : Config) (ops : List PublicOp)
    (st : HeapState) (d o s ev1 ev2 : Nat)
    (ha : 0 < cfg.alignment) (hmax : 0 < cfg.maxReusableCommandLists)
    (hreach : applyOps cfg initState ops = some st)
    (hvalid : ∀ op ∈ ops, opValid op) (hs : 0 < s)
    (hkey : lookupCache st.reusableCommandListsCache ⟨d, o, s⟩ = none) :
    ∃ (st1 st2 : HeapState) (e : ReusableEntry) (a1 : Allocation),
      beginReusableUploadToGpu cfg (okEnv ev1) st d o s = .ok st1 ev1 (some e.entryId) ∧
      beginReusableUploadToGpu cfg (okEnv ev2) st1 d o s = .ok st2 ev2 (some e.entryId) ∧
      totalAllocCount st1 = totalAllocCount st + 1 ∧
      totalAllocCount st2 = totalAllocCount st1 ∧
      findAllocation st1 e.allocId = some a1 ∧
      a1.sizeInBytes = s ∧ a1.doneEvent = ev1 ∧ a1.locked = true ∧
      findAllocation st2 e.allocId = some { a1 with doneEvent := ev2 } := by
  have hI : HeapInv cfg st :=
    applyOps_inv cfg ha ops initState st (initState_inv cfg) hvalid hreach
  obtain ⟨st1, e, a1, hout1, hI1, hlast1, hlook1, hfind1, hfa1, hsz, hde, hlk,
      ⟨c, hfc⟩, hcnt1⟩ :=
    miss_call_spec cfg (okEnv ev1) st d o s ha hmax hI hs hkey rfl rfl rfl rfl rfl rfl
  have hsig2 : reclaimAllocations (okEnv ev2).signaled st1 = st1 := reclaim_false_eq st1
  have hout2 := hit_call_spec cfg (okEnv ev2) st1 d o s e.entryId e a1 c
    hlook1 hsig2 hfind1 hfa1 hfc rfl rfl
  exact ⟨st1, setDoneEvent e.allocId ev2 st1, e, a1, hout1, hout2, hcnt1,
    totalAllocCount_setDoneEvent e.allocId ev2 st1, hfa1, hsz, hde, hlk,
    findAllocation_setDoneEvent_self st1 e.allocId ev2 a1 hfa1⟩

def cfgC4 : Config := ⟨16, 1024, 2⟩

theorem C4_witness :
    ∃ (st1 st2 : HeapState) (e : ReusableEntry) (a1 : Allocation),
      beginReusableUploadToGpu cfgC4 (okEnv 0) initState 1 0 4 = .ok st1 0 (some e.entryId) ∧
      beginReusableUploadToGpu cfgC4 (okEnv 1) st1 1 0 4 = .ok st2 1 (some e.entryId) ∧
      totalAllocCount st1 = totalAllocCount initState + 1 ∧
      totalAllocCount st2 = totalAllocCount st1 ∧
      findAllocation st1 e.allocId = some a1 ∧
      a1.sizeInBytes = 4 ∧ a1.doneEvent = 0 ∧ a1.locked = true ∧
      findAllocation st2 e.allocId = some { a1 with doneEvent := 1 } :=
  C4_cached_path_single_allocation cfgC4 [] initState 1 0 4 0 1 (by decide) (by decide)
    rfl (by simp) (by decide) rfl
